import Mathlib

/-
  Verification development for the DevTrack incremental synchronization engine.

  Shallow embedding of:
  - src/github_client.py : retry policy (_make_request) and pagination (_get_paginated)
  - src/services.py      : GitHubSyncService (sync_user_data, _mask_token,
                           _sync_repositories, _sync_commits)
  - src/main.py          : summary cache lookup (get_summary)
  - src/ai_service.py    : AIService.generate_summary

  The SQLAlchemy session (database.py: sessionmaker with autocommit=False,
  autoflush=False) is modelled as a pair of stores: `committed` (what queries
  see — with autoflush disabled, pending session changes are invisible to
  queries) and `working` (the in-session state including pending adds and
  attribute mutations); `commit` publishes working to committed, `rollback`
  resets working to committed.

  Timestamps and dates are modelled as `Nat`; strings as Lean `String`.
-/

namespace DevTrack

/-! ## Retry policy: GitHubClient._make_request (github_client.py lines 51-82) -/

/-- Outcome of a single `requests.get(...)` + `raise_for_status()` attempt:
either a successful response value, or a `requests.RequestException`
(`status` is `some code` for an `HTTPError` raised by `raise_for_status`,
`none` for connection errors / timeouts). -/
inductive ReqOutcome (α : Type) where
  | ok (val : α)
  | reqErr (status : Option Nat)
deriving Repr, DecidableEq

/-- Trace of one `_make_request` call: the result (`.error s` models the
`RuntimeError` — the spec's `FetchError` — wrapping the last underlying
failure `s`), the number of attempts actually made, and the list of
backoff sleeps performed (in order). -/
structure ReqTrace (α : Type) where
  result : Except (Option Nat) α
  attempts : Nat
  sleeps : List Nat
deriving Repr

/-- The `for attempt in range(max_retries)` loop of `_make_request`,
with `attempt` the current 0-based attempt index and `remaining` the number
of loop iterations left (`remaining = max_retries - attempt`).  On a
`RequestException` at the last iteration the wrapped error is raised;
otherwise the loop sleeps `2 ** attempt` and continues.  The `remaining = 0`
case is the unreachable fall-through `raise RuntimeError("Unexpected error")`. -/
def makeRequestFrom (outcomes : Nat → ReqOutcome α) : Nat → Nat → ReqTrace α
  | a, 0 => ⟨.error none, a, []⟩
  | a, r + 1 =>
    match outcomes a with
    | .ok v => ⟨.ok v, a + 1, []⟩
    | .reqErr s =>
      if r = 0 then ⟨.error s, a + 1, []⟩
      else
        let rest := makeRequestFrom outcomes (a + 1) r
        ⟨rest.result, rest.attempts, 2 ^ a :: rest.sleeps⟩

/-- `_make_request` with its default `max_retries = 3`, parameterized by the
outcome of each attempt. -/
def makeRequest (outcomes : Nat → ReqOutcome α) : ReqTrace α :=
  makeRequestFrom outcomes 0 3

/-- A network that answers every attempt with HTTP 404 (a non-retryable,
4xx-equivalent failure in the spec's taxonomy). -/
def alwaysNotFound : Nat → ReqOutcome Nat := fun _ => ReqOutcome.reqErr (some 404)

/-! ## Pagination: GitHubClient._get_paginated (github_client.py lines 84-120) -/

/-- The `while True` pagination loop of `_get_paginated`.  The external
server is modelled as holding the full record sequence; page `n` (with
`per_page = 100`) returns records `(n-1)*100 .. n*100`, so the loop carries
the remaining suffix `rest` in place of the page counter.  Returns the
accumulated items together with the number of page requests issued.
The loop breaks on an empty page (before extending) or on a short page
(after extending). -/
def getPaginatedTrace (rest : List α) : List α × Nat :=
  let chunk := rest.take 100
  if chunk.isEmpty then ([], 1)
  else if h : chunk.length < 100 then (chunk, 1)
  else
    let next := getPaginatedTrace (rest.drop 100)
    (chunk ++ next.1, next.2 + 1)
termination_by rest.length
decreasing_by
  have h' : ¬ (rest.take 100).length < 100 := h
  have ht : (rest.take 100).length = min 100 rest.length := List.length_take 100 rest
  simp only [List.length_drop]
  omega

/-- `_get_paginated`: all items across all pages. -/
def getPaginated (records : List α) : List α :=
  (getPaginatedTrace records).1

/-- A network that fails the first two attempts with a connection error and
succeeds on the third. -/
def twoFailThenOk : Nat → ReqOutcome Nat :=
  fun n => if n < 2 then ReqOutcome.reqErr none else ReqOutcome.ok 7

/-! ## Data model (models.py) and session (database.py) -/

/-- Python exceptions crossing the service boundary:
`ValueError` (ConfigError), `RuntimeError` (FetchError — the only error the
GitHub client raises, since `_make_request` wraps every failure in
`RuntimeError`), and `requests.RequestException` (the class caught by
`sync_user_data`'s except clause). -/
inductive Exc where
  | valueError (msg : String)
  | runtimeError (msg : String)
  | requestException (msg : String)
deriving Repr, DecidableEq

/-- Row of the `users` table (models.User). -/
structure UserRow where
  id : Nat
  githubUsername : String
  githubToken : String
  lastSyncedAt : Option Nat
deriving Repr, DecidableEq

/-- Row of the `repositories` table (models.Repository). -/
structure RepoRow where
  id : Nat
  userId : Nat
  repoName : String
  repoUrl : String
  language : Option String
deriving Repr, DecidableEq

/-- Row of the `commits` table (models.Commit). -/
structure CommitRow where
  id : Nat
  repositoryId : Nat
  commitSha : String
  message : String
  authorDate : Nat
  filesChanged : Nat
  additions : Nat
  deletions : Nat
deriving Repr, DecidableEq

/-- Row of the `summaries` table (models.Summary); dates modelled as `Nat`. -/
structure SummaryRow where
  id : Nat
  userId : Nat
  timeframe : String
  startDate : Nat
  endDate : Nat
  summaryText : String
  generatedAt : Nat
deriving Repr, DecidableEq

/-- One database state: the four tables plus a fresh-id allocator. -/
structure Store where
  users : List UserRow
  repos : List RepoRow
  commits : List CommitRow
  summaries : List SummaryRow
  nextId : Nat
deriving Repr, DecidableEq

/-- A SQLAlchemy session (autocommit=False, autoflush=False): queries read
`committed`; `db.add` and ORM attribute mutations act on `working` and become
visible to queries only after `commit`. -/
structure DB where
  committed : Store
  working : Store
deriving Repr, DecidableEq

/-- `session.commit()`: publish the working state. -/
def DB.commitTxn (db : DB) : DB :=
  { committed := db.working, working := db.working }

/-- `session.rollback()`: discard pending changes. -/
def DB.rollbackTxn (db : DB) : DB :=
  { committed := db.committed, working := db.committed }

/-- Insert a new `users` row (github_token as given, last_synced_at NULL). -/
def Store.insertUser (s : Store) (username token : String) : Store :=
  { s with users := s.users ++ [⟨s.nextId, username, token, none⟩],
           nextId := s.nextId + 1 }

/-- `user.github_token = ...` on the ORM object with id `uid`. -/
def Store.updateUserToken (s : Store) (uid : Nat) (token : String) : Store :=
  { s with users := s.users.map fun u =>
      if u.id = uid then { u with githubToken := token } else u }

/-- `user.last_synced_at = ...` on the ORM object with id `uid`. -/
def Store.setLastSynced (s : Store) (uid : Nat) (t : Nat) : Store :=
  { s with users := s.users.map fun u =>
      if u.id = uid then { u with lastSyncedAt := some t } else u }

/-- Insert a new `repositories` row. -/
def Store.insertRepo (s : Store) (userId : Nat) (name url : String)
    (language : Option String) : Store :=
  { s with repos := s.repos ++ [⟨s.nextId, userId, name, url, language⟩],
           nextId := s.nextId + 1 }

/-- `existing_repo.repo_url = ...; existing_repo.language = ...` on the ORM
object with id `rid`. -/
def Store.updateRepoMeta (s : Store) (rid : Nat) (url : String)
    (language : Option String) : Store :=
  { s with repos := s.repos.map fun r =>
      if r.id = rid then { r with repoUrl := url, language := language } else r }

/-- Insert a new `commits` row. -/
def Store.insertCommit (s : Store) (repoId : Nat) (sha message : String)
    (authorDate filesChanged additions deletions : Nat) : Store :=
  { s with commits := s.commits ++
      [⟨s.nextId, repoId, sha, message, authorDate, filesChanged, additions, deletions⟩],
           nextId := s.nextId + 1 }

/-! ## GitHub client interface as seen by the sync service -/

/-- Projection of a repository returned by `GitHubClient.get_repositories`. -/
structure RepoData where
  name : String
  url : String
  language : Option String
deriving Repr, DecidableEq

/-- Projection of a commit returned by `GitHubClient.get_commits`. -/
structure CommitData where
  sha : String
  message : String
  authorDate : Nat
deriving Repr, DecidableEq

/-- Projection of `GitHubClient.get_commit_details`. -/
structure CommitDetails where
  filesChanged : Nat
  additions : Nat
  deletions : Nat
deriving Repr, DecidableEq

/-- The GitHub client as the sync service consumes it: three fallible calls.
`getCommits` takes (repo_full_name, since, author). -/
structure Client where
  getRepositories : Except Exc (List RepoData)
  getCommits : String → Option Nat → Option String → Except Exc (List CommitData)
  getCommitDetails : String → String → Except Exc CommitDetails

/-- A commit-listing query as issued by `_sync_commits`:
`get_commits(repo_full_name, since=since, author=username)`. -/
structure CommitQuery where
  repoFullName : String
  since : Option Nat
  author : String
deriving Repr, DecidableEq

/-! ## Sync service: GitHubSyncService (services.py) -/

/-- `_mask_token` (services.py lines 97-112): tokens of length ≤ 4 become all
asterisks; otherwise all but the last 4 characters are replaced by `*`. -/
def maskToken (token : String) : String :=
  if token.length ≤ 4 then String.mk (List.replicate token.length (Char.ofNat 42))
  else String.mk
    (List.replicate (token.length - 4) (Char.ofNat 42) ++
      token.data.drop (token.length - 4))

/-- The per-repository loop of `_sync_repositories` (services.py lines
130-150): existence is checked against the committed repository rows (fixed
for the whole loop — autoflush is off and no commit happens inside the
loop), updates and inserts accumulate in the working store. Returns the new
working store and the number of repositories added. -/
def syncReposFold (committedRepos : List RepoRow) (userId : Nat) :
    List RepoData → Store → Nat → Store × Nat
  | [], w, n => (w, n)
  | rd :: rest, w, n =>
    match committedRepos.find? (fun r => r.userId == userId && r.repoName == rd.name) with
    | some existing =>
      syncReposFold committedRepos userId rest
        (w.updateRepoMeta existing.id rd.url rd.language) n
    | none =>
      syncReposFold committedRepos userId rest
        (w.insertRepo userId rd.name rd.url rd.language) (n + 1)

/-- Outcome of `_sync_repositories`: the session state at return (or at the
raise point) and either the number of repos added or the escaping exception. -/
structure RepoSyncOut where
  db : DB
  result : Except Exc Nat
deriving Repr

/-- `_sync_repositories` (services.py lines 114-153): fetch the repository
list, reconcile each entry against the committed rows, then `commit()`.
A fetch failure escapes before any database change. -/
def syncRepositories (client : Client) (user : UserRow) (db : DB) : RepoSyncOut :=
  match client.getRepositories with
  | .error e => ⟨db, .error e⟩
  | .ok githubRepos =>
    let p := syncReposFold db.committed.repos user.id githubRepos db.working 0
    ⟨DB.commitTxn { db with working := p.1 }, .ok p.2⟩

/-- Outcome of the inner commit loop: working store, commits added, shas for
which `get_commit_details` was called, and the escaping exception if any. -/
structure InsOut where
  working : Store
  added : Nat
  detailShas : List String
  err : Option Exc
deriving Repr

/-- The per-commit loop of `_sync_commits` (services.py lines 189-214):
for each fetched commit, look its sha up in the committed `commits` rows
(fixed throughout the pass — autoflush is off and the only `commit()` is at
the very end); if absent, fetch detail stats (aborting the pass if that
fetch fails) and stage an insert. -/
def insertCommitsFold (client : Client) (committedCommits : List CommitRow)
    (fullName : String) (repoId : Nat) :
    List CommitData → Store → Nat → List String → InsOut
  | [], w, n, ds => ⟨w, n, ds, none⟩
  | c :: rest, w, n, ds =>
    match committedCommits.find? (fun r => r.commitSha == c.sha) with
    | some _ => insertCommitsFold client committedCommits fullName repoId rest w n ds
    | none =>
      match client.getCommitDetails fullName c.sha with
      | .error e => ⟨w, n, ds ++ [c.sha], some e⟩
      | .ok d =>
        insertCommitsFold client committedCommits fullName repoId rest
          (w.insertCommit repoId c.sha c.message c.authorDate
            d.filesChanged d.additions d.deletions)
          (n + 1) (ds ++ [c.sha])

/-- Outcome of the per-repository commit loop. -/
structure CommitLoopOut where
  working : Store
  added : Nat
  queries : List CommitQuery
  detailShas : List String
  err : Option Exc
deriving Repr

/-- The per-repository loop of `_sync_commits` (services.py lines 179-214):
for each repository row of the user, issue
`get_commits(f"{username}/{repo_name}", since=since, author=username)` and
process the returned commits. -/
def syncCommitsRepos (client : Client) (committed : Store) (username : String)
    (since : Option Nat) :
    List RepoRow → Store → Nat → List CommitQuery → List String → CommitLoopOut
  | [], w, n, qs, ds => ⟨w, n, qs, ds, none⟩
  | repo :: rest, w, n, qs, ds =>
    let fullName := username ++ "/" ++ repo.repoName
    let qs' := qs ++ [⟨fullName, since, username⟩]
    match client.getCommits fullName since (some username) with
    | .error e => ⟨w, n, qs', ds, some e⟩
    | .ok githubCommits =>
      let r := insertCommitsFold client committed.commits fullName repo.id
        githubCommits w 0 []
      match r.err with
      | some e => ⟨r.working, n + r.added, qs', ds ++ r.detailShas, some e⟩
      | none =>
        syncCommitsRepos client committed username since rest r.working
          (n + r.added) qs' (ds ++ r.detailShas)

/-- Outcome of `_sync_commits`. -/
structure CommitSyncOut where
  db : DB
  queries : List CommitQuery
  detailShas : List String
  result : Except Exc Nat
deriving Repr

/-- `_sync_commits` (services.py lines 155-217): query the user's repository
rows (committed — `_sync_repositories` committed just before), compute
`since` from the in-memory user's `last_synced_at`, loop over repositories,
and `commit()` once at the very end (skipped when an exception escapes). -/
def syncCommits (client : Client) (user : UserRow) (db : DB) : CommitSyncOut :=
  let repos := db.committed.repos.filter (fun r => r.userId == user.id)
  let since := user.lastSyncedAt
  let r := syncCommitsRepos client db.committed user.githubUsername since
    repos db.working 0 [] []
  match r.err with
  | some e => ⟨{ db with working := r.working }, r.queries, r.detailShas, .error e⟩
  | none => ⟨DB.commitTxn { db with working := r.working }, r.queries,
      r.detailShas, .ok r.added⟩

/-- Environment configuration (`os.getenv`): `GITHUB_USERNAME` and
`GITHUB_TOKEN`; `none` models an unset variable. -/
structure Env where
  githubUsername : Option String
  githubToken : Option String

/-- Python falsiness of `os.getenv(...)`: unset or empty. -/
def envBlank : Option String → Bool
  | none => true
  | some s => s == ""

/-- The success payload of `sync_user_data`. -/
structure SyncResult where
  username : String
  repositoriesSynced : Nat
  commitsSynced : Nat
  lastSynced : Nat
deriving Repr, DecidableEq

/-- Full outcome of one sync pass: final session state, the commit-listing
queries issued, the shas whose detail stats were fetched, and the result. -/
structure SyncOut where
  db : DB
  queries : List CommitQuery
  detailShas : List String
  result : Except Exc SyncResult
deriving Repr

/-- The `except requests.RequestException` clause of `sync_user_data`
(services.py lines 82-84): only a `requests.RequestException` triggers
`rollback()` and is re-raised as `RuntimeError`; every other exception —
in particular the `RuntimeError` that `_make_request` actually raises —
propagates unchanged with no rollback. -/
def handleSyncExc (db : DB) (e : Exc) : DB × Exc :=
  match e with
  | .requestException m =>
    (db.rollbackTxn, .runtimeError ("GitHub API request failed: " ++ m))
  | e => (db, e)

/-- Steps 2–4 of `sync_user_data` (services.py lines 78-95): the
`try/except` around `_sync_repositories` and `_sync_commits`, then the
watermark advance (`user.last_synced_at = now`) and final commit, which runs
only when steps 2–3 completed without raising. -/
def syncPassTail (client : Client) (now : Nat) (user : UserRow) (db1 : DB)
    (username : String) : SyncOut :=
  let r1 := syncRepositories client user db1
  match r1.result with
  | .error e =>
    let h := handleSyncExc r1.db e
    ⟨h.1, [], [], .error h.2⟩
  | .ok reposSynced =>
    let r2 := syncCommits client user r1.db
    match r2.result with
    | .error e =>
      let h := handleSyncExc r2.db e
      ⟨h.1, r2.queries, r2.detailShas, .error h.2⟩
    | .ok commitsSynced =>
      let db3 := DB.commitTxn
        { r2.db with working := r2.db.working.setLastSynced user.id now }
      ⟨db3, r2.queries, r2.detailShas,
        .ok ⟨username, reposSynced, commitsSynced, now⟩⟩

/-- `sync_user_data` (services.py lines 34-95): config checks, user upsert
(masked token) with immediate commit, then steps 2–4 (`syncPassTail`).
`now` is the value of `datetime.now(timezone.utc)` at step 4. -/
def syncUserData (env : Env) (client : Client) (now : Nat) (db : DB) : SyncOut :=
  if envBlank env.githubUsername then
    ⟨db, [], [], .error (.valueError "GITHUB_USERNAME environment variable is required.")⟩
  else if envBlank env.githubToken then
    ⟨db, [], [], .error (.valueError "GITHUB_TOKEN environment variable is required.")⟩
  else
    let username := env.githubUsername.getD ""
    let token := env.githubToken.getD ""
    match db.committed.users.find? (fun u => u.githubUsername == username) with
    | none =>
      let row : UserRow := ⟨db.working.nextId, username, maskToken token, none⟩
      syncPassTail client now row
        (DB.commitTxn { db with working := db.working.insertUser username (maskToken token) })
        username
    | some u =>
      syncPassTail client now { u with githubToken := maskToken token }
        (DB.commitTxn { db with working := db.working.updateUserToken u.id (maskToken token) })
        username

/-! ## The external hosting API modelled from the spec (for claims about
server-side filtering and fixed external data) -/

/-- A commit as it exists on the external server (author included). -/
structure ServerCommit where
  sha : String
  message : String
  authorDate : Nat
  author : String
deriving Repr, DecidableEq

/-- The external hosting service's data: repository list, full commit list
per repository full name, and detail stats per sha. -/
structure Server where
  repos : List RepoData
  commitsOf : String → List ServerCommit
  detailsOf : String → CommitDetails

/-- Modelled from the spec: the external hosting API's
`listCommits(repoFullName, since?, author?) → page` filters server-side —
commits authored before `since` are excluded from the fetched window, and
commits by authors other than `author` are excluded. The repository source
itself is external to this repository; only its client-side consumer
(`GitHubClient.get_commits`) is in src. -/
def Server.listCommits (srv : Server) (repoFullName : String)
    (since : Option Nat) (author : Option String) : List CommitData :=
  ((srv.commitsOf repoFullName).filter fun c =>
      (match since with
        | none => true
        | some s => s ≤ c.authorDate) &&
      (match author with
        | none => true
        | some a => c.author == a)).map
    fun c => ⟨c.sha, c.message, c.authorDate⟩

/-- The GitHub client wired to a concrete external server: every call
succeeds (network behaviour is external; this instantiation models a healthy
server with fixed data). -/
def Server.client (srv : Server) : Client where
  getRepositories := .ok srv.repos
  getCommits := fun fullName since author => .ok (srv.listCommits fullName since author)
  getCommitDetails := fun _ sha => .ok (srv.detailsOf sha)

/-- The working store and insertion count produced by step 2
(`_sync_repositories`) of a pass against `srv`, starting from the
post-upsert session `db1`. -/
def runReposF (srv : Server) (user : UserRow) (db1 : DB) : Store × Nat :=
  syncReposFold db1.committed.repos user.id srv.repos db1.working 0

/-- The state of the commit loop of step 3 (`_sync_commits`) of the same
pass, which runs on the session committed at the end of step 2. -/
def runCommitsR (srv : Server) (user : UserRow) (db1 : DB) : CommitLoopOut :=
  syncCommitsRepos (Server.client srv) (runReposF srv user db1).1 user.githubUsername
    user.lastSyncedAt
    ((runReposF srv user db1).1.repos.filter (fun r => r.userId == user.id))
    (runReposF srv user db1).1 0 [] []

/-! ## Summary cache lookup: get_summary (main.py lines 209-215) -/

/-- One step of `order_by(Summary.generated_at.desc()).first()`: keep the row
with the strictly larger generation timestamp (on a tie the earlier-stored
row is kept, matching a stable descending sort). -/
def summaryPick (acc : Option SummaryRow) (s : SummaryRow) : Option SummaryRow :=
  match acc with
  | none => some s
  | some b => if b.generatedAt < s.generatedAt then some s else acc

/-- The cached-summary query of `get_summary`: filter on the exact key
`(user_id, timeframe, start_date, end_date)`, order by `generated_at`
descending, take the first row. -/
def summaryLookup (summaries : List SummaryRow) (userId : Nat) (timeframe : String)
    (startDay endDay : Nat) : Option SummaryRow :=
  (summaries.filter fun s => s.userId == userId && s.timeframe == timeframe &&
      s.startDate == startDay && s.endDate == endDay).foldl summaryPick none

/-! ## AI service: AIService.generate_summary (ai_service.py lines 35-106) -/

/-- A commit dictionary as passed to `generate_summary` by `get_summary`
(main.py lines 239-249). -/
structure AICommit where
  repoName : String
  message : String
  authorDate : Nat
  filesChanged : Nat
  additions : Nat
  deletions : Nat
deriving Repr, DecidableEq

/-- Failures of the Anthropic client (`AuthenticationError`, `RateLimitError`,
`APIError`). -/
inductive AIErr where
  | authentication
  | rateLimit
  | api (msg : String)
deriving Repr, DecidableEq

/-- The repository-grouping step of `_format_commits_for_ai`: a Python dict
with insertion order, `repos[repo].append(commit)`. -/
def groupAdd (groups : List (String × List AICommit)) (c : AICommit) :
    List (String × List AICommit) :=
  if groups.any (fun g => g.1 == c.repoName) then
    groups.map (fun g => if g.1 == c.repoName then (g.1, g.2 ++ [c]) else g)
  else groups ++ [(c.repoName, [c])]

/-- `_format_commits_for_ai` (ai_service.py lines 108-154), with the
`strftime("%b %d")` date rendering supplied as `fmtDate`. -/
def formatCommitsForAI (fmtDate : Nat → String) (commits : List AICommit)
    (timeframe : String) : String :=
  let header := "=== Commits from the last " ++ timeframe ++ " ===\n"
  let repos := commits.foldl groupAdd []
  let body := repos.foldl (fun lines g =>
    let repoCommits := g.2
    let totalAdd := (repoCommits.map (fun c => c.additions)).sum
    let totalDel := (repoCommits.map (fun c => c.deletions)).sum
    let totalFiles := (repoCommits.map (fun c => c.filesChanged)).sum
    let commitLines := (repoCommits.take 10).map (fun c =>
      "    - [" ++ fmtDate c.authorDate ++ "] " ++
        ((c.message.splitOn "\n").headD "").take 80 ++
        " (+" ++ toString c.additions ++ "/-" ++ toString c.deletions ++ ")")
    let overflow := if repoCommits.length > 10 then
        ["    ... and " ++ toString (repoCommits.length - 10) ++ " more commits"]
      else []
    lines ++ ("\n**" ++ g.1 ++ "** (" ++ toString repoCommits.length ++ " commits):")
      :: ("  Total changes: +" ++ toString totalAdd ++ "/-" ++ toString totalDel ++
          " lines, " ++ toString totalFiles ++ " files")
      :: "  Commits:" :: (commitLines ++ overflow)) [header]
  String.intercalate "\n" body

/-- The prompt built by `generate_summary` around the formatted commits. -/
def aiPrompt (commitsText timeframe : String) : String :=
  "Analyze these Git commits from the last " ++ timeframe ++
    " and provide a concise summary.\n\n" ++ commitsText ++
    "\n\nProvide a summary that:\n" ++
    "1. Groups work by repository/project\n" ++
    "2. Highlights main focus areas and accomplishments\n" ++
    "3. Notes any patterns (refactoring, bug fixes, new features)\n" ++
    "4. Mentions productivity metrics (commit count, lines changed)\n\n" ++
    "Keep it concise (3-4 sentences max). Write in second person (\"you worked on...\").\n" ++
    "Do NOT use markdown formatting in the output - just plain text paragraphs."

/-- `generate_summary` (ai_service.py lines 35-106): the empty-commits guard
returns a fixed string before any API use; otherwise the Claude API is
invoked on the built prompt (the Boolean records whether
`client.messages.create` was called) and its failures are re-raised as
`RuntimeError` with fixed messages. -/
def generateSummary (api : String → Except AIErr String) (fmtDate : Nat → String)
    (commits : List AICommit) (timeframe : String) : Except Exc String × Bool :=
  if commits.isEmpty then
    (.ok ("No commits found in the last " ++ timeframe ++ "."), false)
  else
    let commitsText := formatCommitsForAI fmtDate commits timeframe
    match api (aiPrompt commitsText timeframe) with
    | .ok text => (.ok text, true)
    | .error .authentication =>
      (.error (.runtimeError
        "Anthropic API authentication failed. Check your ANTHROPIC_API_KEY."), true)
    | .error .rateLimit =>
      (.error (.runtimeError
        "Anthropic API rate limit exceeded. Please try again in a few moments."), true)
    | .error (.api m) =>
      (.error (.runtimeError ("Anthropic API call failed: " ++ m)), true)

/-! ## Concrete instances used by witnesses and counterexamples -/

/-- Three stored summaries: two under the key `(1, "week", 100, 107)` with
different generation times and one under `(1, "month", 100, 107)`. -/
def summariesEx : List SummaryRow :=
  [⟨1, 1, "week", 100, 107, "old text", 50⟩,
    ⟨2, 1, "week", 100, 107, "new text", 60⟩,
    ⟨3, 1, "month", 100, 107, "other granularity", 70⟩]

/-- An empty database with a fresh session. -/
def dbEmpty : DB := ⟨⟨[], [], [], [], 1⟩, ⟨[], [], [], [], 1⟩⟩

/-- Environment with both variables set. -/
def envAlice : Env := ⟨some "alice", some "tok_secret99"⟩

/-- A client whose repository listing succeeds (one repository) but whose
commit listing fails with the `RuntimeError` that `_make_request` raises on
retry exhaustion. -/
def commitsFailClient : Client where
  getRepositories := .ok [⟨"r1", "u1", none⟩]
  getCommits := fun _ _ _ => .error (.runtimeError "boom")
  getCommitDetails := fun _ _ => .ok ⟨0, 0, 0⟩

/-- The spec §8 scenario server: two repositories, one empty and one with
3 commits by the tracked author and 1 by another author. -/
def srvScenario : Server where
  repos := [⟨"empty", "u/e", none⟩, ⟨"full", "u/f", some "Python"⟩]
  commitsOf := fun f =>
    if f == "alice/full" then
      [⟨"s1", "m1", 10, "alice"⟩, ⟨"s2", "m2", 20, "alice"⟩,
        ⟨"s3", "m3", 30, "bob"⟩, ⟨"s4", "m4", 40, "alice"⟩]
    else []
  detailsOf := fun _ => ⟨1, 2, 3⟩

/-- A store with one user, one repository and one stored commit `"s1"`
(as left by an interrupted earlier pass that committed `"s1"`). -/
def storeS1 : Store :=
  { users := [⟨1, "alice", "********et99", some 5⟩],
    repos := [⟨2, 1, "full", "u/f", some "Python"⟩],
    commits := [⟨3, 2, "s1", "m1", 10, 1, 2, 3⟩],
    summaries := [], nextId := 4 }

/-- Session on `storeS1`. -/
def dbS1 : DB := ⟨storeS1, storeS1⟩

/-- The user row of `storeS1`. -/
def userAlice : UserRow := ⟨1, "alice", "********et99", some 5⟩

/-! ## Theorems for the retry policy and pagination -/

/-- Claim C3: a wrapped call failing on the first two attempts and succeeding
on the third returns the successful result after sleeping exactly 1 then 2
time units; a call failing on all three attempts raises `FetchError` wrapping
the last underlying failure and makes no fourth attempt (exactly 3 attempts
are made, with the same sleeps 1 and 2). -/
theorem makeRequest_retry_backoff {α : Type} (f g : Nat → ReqOutcome α)
    (s0 s1 t0 t1 t2 : Option Nat) (v : α)
    (hf0 : f 0 = .reqErr s0) (hf1 : f 1 = .reqErr s1) (hf2 : f 2 = .ok v)
    (hg0 : g 0 = .reqErr t0) (hg1 : g 1 = .reqErr t1) (hg2 : g 2 = .reqErr t2) :
    makeRequest f = ⟨.ok v, 3, [1, 2]⟩ ∧ makeRequest g = ⟨.error t2, 3, [1, 2]⟩ := by
  constructor <;>
    simp [makeRequest, makeRequestFrom, hf0, hf1, hf2, hg0, hg1, hg2]

/-- Witness for C3 at concrete inputs. -/
theorem makeRequest_retry_backoff_witness :
    makeRequest twoFailThenOk = ⟨.ok 7, 3, [1, 2]⟩ ∧
      makeRequest alwaysNotFound = ⟨.error (some 404), 3, [1, 2]⟩ :=
  makeRequest_retry_backoff twoFailThenOk alwaysNotFound none none
    (some 404) (some 404) (some 404) 7 rfl rfl rfl rfl rfl rfl

/-- Claim C2 counterexample: a call that fails with HTTP 404 (4xx-equivalent,
non-retryable per the spec) on every attempt is NOT failed immediately on the
first attempt: the code makes 3 attempts and sleeps 1 and 2 time units,
because `_make_request` catches every `requests.RequestException` (including
`HTTPError` from `raise_for_status`) uniformly. -/
theorem makeRequest_notFound_is_retried :
    makeRequest alwaysNotFound = ⟨.error (some 404), 3, [1, 2]⟩ ∧
      ¬((makeRequest alwaysNotFound).attempts = 1 ∧
        (makeRequest alwaysNotFound).sleeps = []) := by
  exact ⟨rfl, by decide⟩

/-- Claim C2 (amended): 4xx-equivalent failures are retried like every other
request failure; a call failing with the same 4xx status on all attempts
consumes the full retry budget (3 attempts, backoff sleeps 1 and 2) and then
raises `FetchError` wrapping the last failure. -/
theorem makeRequest_4xx_consumes_budget {α : Type} (outcomes : Nat → ReqOutcome α)
    (s : Nat) (h0 : outcomes 0 = .reqErr (some s)) (h1 : outcomes 1 = .reqErr (some s))
    (h2 : outcomes 2 = .reqErr (some s)) (hs : 400 ≤ s ∧ s < 500) :
    makeRequest outcomes = ⟨.error (some s), 3, [1, 2]⟩ := by
  simp [makeRequest, makeRequestFrom, h0, h1, h2]

/-- Witness for the amended C2 at a concrete 404 input. -/
theorem makeRequest_4xx_consumes_budget_witness :
    ((400 : Nat) ≤ 404 ∧ (404 : Nat) < 500 ∧ alwaysNotFound 0 = .reqErr (some 404)) ∧
      makeRequest alwaysNotFound = ⟨.error (some 404), 3, [1, 2]⟩ :=
  ⟨⟨by norm_num, by norm_num, rfl⟩,
    makeRequest_4xx_consumes_budget alwaysNotFound 404 rfl rfl rfl
      ⟨by norm_num, by norm_num⟩⟩

/-- Claim C4: the paginated fetch (pages of fixed size 100 starting at page 1,
continuing exactly while a page is full-sized) returns every record of the
external sequence exactly once, in order, and issues `n / 100 + 1` page
requests for an external sequence of `n` records — in particular for 0, 100
and 101 records it returns all records with the correct count and stops at
the first short (or empty) page. -/
theorem getPaginatedTrace_returns_all {α : Type} (records : List α) :
    getPaginatedTrace records = (records, records.length / 100 + 1) := by
  have H : ∀ n (l : List α), l.length ≤ n →
      getPaginatedTrace l = (l, l.length / 100 + 1) := by
    intro n
    induction n with
    | zero =>
      intro l hl
      have : l = [] := List.eq_nil_of_length_eq_zero (Nat.le_zero.mp hl)
      subst this
      rw [getPaginatedTrace]
      simp
    | succ n ih =>
      intro l hl
      rw [getPaginatedTrace]
      by_cases hemp : (l.take 100).isEmpty
      · have h0 : l = [] := by
          rcases (List.take_eq_nil_iff).mp (List.isEmpty_iff.mp hemp) with h | h
          · exact absurd h (by norm_num)
          · exact h
        subst h0
        simp
      · rw [if_neg hemp]
        have htl : (l.take 100).length = min 100 l.length := List.length_take 100 l
        by_cases hshort : (l.take 100).length < 100
        · rw [dif_pos hshort]
          have hlen : l.length < 100 := by omega
          have htake : l.take 100 = l := List.take_of_length_le (by omega)
          have hdiv : l.length / 100 = 0 := Nat.div_eq_of_lt hlen
          rw [htake, hdiv]
        · rw [dif_neg hshort]
          have hge : 100 ≤ l.length := by omega
          have hdroplen : (l.drop 100).length = l.length - 100 := List.length_drop 100 l
          have ihd := ih (l.drop 100) (by omega)
          simp only [ihd]
          rw [List.take_append_drop]
          have hdiv : (List.drop 100 l).length / 100 + 1 + 1 = l.length / 100 + 1 := by
            rw [hdroplen]; omega
          rw [hdiv]
  exact H records.length records (le_refl _)

/-! ## Session-preservation lemmas for the sync service -/

theorem syncReposFold_preserves (cr : List RepoRow) (uid : Nat) :
    ∀ (l : List RepoData) (w : Store) (n : Nat),
      (syncReposFold cr uid l w n).1.users = w.users ∧
      (syncReposFold cr uid l w n).1.commits = w.commits := by
  intro l
  induction l with
  | nil => intro w n; exact ⟨rfl, rfl⟩
  | cons rd rest ih =>
    intro w n
    simp only [syncReposFold]
    cases cr.find? (fun r => r.userId == uid && r.repoName == rd.name) with
    | some existing => exact ih _ _
    | none => exact ih _ _

theorem syncRepositories_error_db (client : Client) (user : UserRow) (db : DB)
    (e : Exc) (h : (syncRepositories client user db).result = .error e) :
    (syncRepositories client user db).db = db := by
  cases hc : client.getRepositories with
  | error e' => simp [syncRepositories, hc]
  | ok l => simp [syncRepositories, hc] at h

theorem syncRepositories_committed (client : Client) (user : UserRow) (db : DB)
    (hclean : db.working = db.committed) :
    (syncRepositories client user db).db.committed.users = db.committed.users ∧
    (syncRepositories client user db).db.committed.commits = db.committed.commits ∧
    (syncRepositories client user db).db.working = (syncRepositories client user db).db.committed := by
  cases hc : client.getRepositories with
  | error e => simp [syncRepositories, hc, hclean]
  | ok l =>
    have hp := syncReposFold_preserves db.committed.repos user.id l db.working 0
    simp only [syncRepositories, hc, DB.commitTxn]
    exact ⟨by rw [hp.1, hclean], by rw [hp.2, hclean], trivial⟩

theorem syncCommits_error_committed (client : Client) (user : UserRow) (db : DB)
    (e : Exc) (h : (syncCommits client user db).result = .error e) :
    (syncCommits client user db).db.committed = db.committed := by
  unfold syncCommits at h ⊢
  cases he : (syncCommitsRepos client db.committed user.githubUsername
      user.lastSyncedAt (db.committed.repos.filter (fun r => r.userId == user.id))
      db.working 0 [] []).err with
  | some e' => simp [he]
  | none => simp [he] at h

theorem handleSyncExc_committed (db : DB) (e : Exc) :
    (handleSyncExc db e).1.committed = db.committed := by
  cases e <;> simp [handleSyncExc, DB.rollbackTxn]

/-- The watermark column of the users table is untouched by a token update. -/
theorem updateUserToken_lastSynced (s : Store) (uid : Nat) (tok : String) :
    (s.updateUserToken uid tok).users.map (fun u => u.lastSyncedAt)
      = s.users.map (fun u => u.lastSyncedAt) := by
  simp only [Store.updateUserToken, List.map_map]
  apply List.map_congr_left
  intro a _
  by_cases h : a.id = uid <;> simp [h]

/-- On any failing run of steps 2–4, the committed commits and the committed
user rows are exactly those committed by the user upsert. -/
theorem syncPassTail_error (client : Client) (now : Nat) (user : UserRow)
    (db1 : DB) (username : String) (e : Exc)
    (hclean1 : db1.working = db1.committed)
    (herr : (syncPassTail client now user db1 username).result = .error e) :
    (syncPassTail client now user db1 username).db.committed.commits
        = db1.committed.commits ∧
    (syncPassTail client now user db1 username).db.committed.users
        = db1.committed.users := by
  unfold syncPassTail at herr ⊢
  cases hr1 : (syncRepositories client user db1).result with
  | error e1 =>
    simp only [hr1] at herr ⊢
    have hdb := syncRepositories_error_db client user db1 e1 hr1
    rw [hdb, handleSyncExc_committed]
    exact ⟨rfl, rfl⟩
  | ok n =>
    simp only [hr1] at herr ⊢
    cases hr2 : (syncCommits client user (syncRepositories client user db1).db).result with
    | error e2 =>
      simp only [hr2] at herr ⊢
      have h1 := syncRepositories_committed client user db1 hclean1
      have h2 := syncCommits_error_committed client user
        (syncRepositories client user db1).db e2 hr2
      rw [handleSyncExc_committed, h2]
      exact ⟨h1.2.1, h1.1⟩
    | ok m => simp [hr2] at herr

/-! ## Claim C1 -/

/-- Claim C1 counterexample: from an empty database, a pass whose repository
fetch succeeds (one repository) and whose commit fetch raises `FetchError`
(the client's `RuntimeError`) aborts — but the stored state is NOT as it was
before the pass: the new repository is already committed (by
`_sync_repositories`'s own `commit()`), with no commits stored for it, and no
rollback of it occurs. -/
theorem syncUserData_fetchError_counterexample :
    (syncUserData envAlice commitsFailClient 100 dbEmpty).result
        = .error (.runtimeError "boom") ∧
    (syncUserData envAlice commitsFailClient 100 dbEmpty).db.committed.repos.length = 1 ∧
    dbEmpty.committed.repos.length = 0 ∧
    (syncUserData envAlice commitsFailClient 100 dbEmpty).db.committed.commits = [] ∧
    (syncUserData envAlice commitsFailClient 100 dbEmpty).db.committed.users.map
        (fun u => u.lastSyncedAt) = [none] := by
  refine ⟨rfl, rfl, rfl, rfl, rfl⟩

/-- Claim C1 (amended): a pass in which any step raises (in particular a
`FetchError` during steps 2–3) aborts with no commits committed for the
failing pass and without advancing `lastSyncedAt` (the stored watermark of
every pre-existing user row is unchanged; a freshly created user row has a
`NULL` watermark) — but repositories synced in step 2 are committed before
step 3 runs, so the stored state is not necessarily as it was before the
pass, and repositories can be committed without their commits. -/
theorem syncUserData_fetchError_aborts (env : Env) (client : Client)
    (now : Nat) (db : DB) (e : Exc)
    (hclean : db.working = db.committed)
    (herr : (syncUserData env client now db).result = .error e) :
    (syncUserData env client now db).db.committed.commits = db.committed.commits ∧
    ((syncUserData env client now db).db.committed.users.map (fun u => u.lastSyncedAt)
        = db.committed.users.map (fun u => u.lastSyncedAt) ∨
      (syncUserData env client now db).db.committed.users.map (fun u => u.lastSyncedAt)
        = db.committed.users.map (fun u => u.lastSyncedAt) ++ [none]) := by
  by_cases h1 : envBlank env.githubUsername
  · simp [syncUserData, h1]
  · by_cases h2 : envBlank env.githubToken
    · simp [syncUserData, h1, h2]
    · simp only [syncUserData, h1, h2, if_false, Bool.false_eq_true] at herr ⊢
      cases hfind : db.committed.users.find?
          (fun u => u.githubUsername == env.githubUsername.getD "") with
      | none =>
        simp only [hfind] at herr ⊢
        set tk := maskToken (env.githubToken.getD "") with htk
        set un := env.githubUsername.getD "" with hun
        set db1 := DB.commitTxn { db with working := db.working.insertUser un tk } with hdb1
        set row : UserRow := ⟨db.working.nextId, un, tk, none⟩ with hrow
        have ht := syncPassTail_error client now row db1 un e (by rw [hdb1]; rfl) herr
        rw [ht.1, ht.2]
        constructor
        · rw [hdb1]
          simp [DB.commitTxn, Store.insertUser, hclean]
        · right
          rw [hdb1]
          simp [DB.commitTxn, Store.insertUser, hclean, hrow]
      | some u =>
        simp only [hfind] at herr ⊢
        set tk := maskToken (env.githubToken.getD "") with htk
        set un := env.githubUsername.getD "" with hun
        set db1 := DB.commitTxn { db with working := db.working.updateUserToken u.id tk }
          with hdb1
        set row : UserRow := { u with githubToken := tk } with hrow
        have ht := syncPassTail_error client now row db1 un e (by rw [hdb1]; rfl) herr
        rw [ht.1, ht.2]
        constructor
        · rw [hdb1]
          simp [DB.commitTxn, Store.updateUserToken, hclean]
        · left
          rw [hdb1]
          simp only [DB.commitTxn]
          rw [updateUserToken_lastSynced, hclean]

/-- Witness for the amended C1 at the concrete counterexample input. -/
theorem syncUserData_fetchError_aborts_witness :
    dbEmpty.working = dbEmpty.committed ∧
    (syncUserData envAlice commitsFailClient 100 dbEmpty).result
        = .error (.runtimeError "boom") ∧
    ((syncUserData envAlice commitsFailClient 100 dbEmpty).db.committed.commits
        = dbEmpty.committed.commits ∧
      ((syncUserData envAlice commitsFailClient 100 dbEmpty).db.committed.users.map
          (fun u => u.lastSyncedAt)
          = dbEmpty.committed.users.map (fun u => u.lastSyncedAt) ∨
        (syncUserData envAlice commitsFailClient 100 dbEmpty).db.committed.users.map
          (fun u => u.lastSyncedAt)
          = dbEmpty.committed.users.map (fun u => u.lastSyncedAt) ++ [none])) :=
  ⟨rfl, rfl,
    syncUserData_fetchError_aborts envAlice commitsFailClient 100 dbEmpty
      (.runtimeError "boom") rfl rfl⟩

/-! ## Commit-loop lemmas -/

theorem insertCommitsFold_detailShas_src (client : Client) (cc : List CommitRow)
    (fullName : String) (repoId : Nat) :
    ∀ (l : List CommitData) (w : Store) (n : Nat) (ds : List String) (sha : String),
      sha ∈ (insertCommitsFold client cc fullName repoId l w n ds).detailShas →
      sha ∈ ds ∨ ∃ c ∈ l, c.sha = sha := by
  intro l
  induction l with
  | nil => intro w n ds sha h; exact Or.inl h
  | cons c rest ih =>
    intro w n ds sha h
    simp only [insertCommitsFold] at h
    cases hf : cc.find? (fun r => r.commitSha == c.sha) with
    | some r =>
      simp only [hf] at h
      rcases ih w n ds sha h with h' | ⟨c', hc', he⟩
      · exact Or.inl h'
      · exact Or.inr ⟨c', List.mem_cons_of_mem _ hc', he⟩
    | none =>
      simp only [hf] at h
      cases hd : client.getCommitDetails fullName c.sha with
      | error e =>
        simp only [hd] at h
        rcases List.mem_append.mp h with h' | h'
        · exact Or.inl h'
        · exact Or.inr ⟨c, List.mem_cons_self c rest, (List.mem_singleton.mp h').symm⟩
      | ok d =>
        simp only [hd] at h
        rcases ih _ _ _ sha h with h' | ⟨c', hc', he⟩
        · rcases List.mem_append.mp h' with h'' | h''
          · exact Or.inl h''
          · exact Or.inr ⟨c, List.mem_cons_self c rest, (List.mem_singleton.mp h'').symm⟩
        · exact Or.inr ⟨c', List.mem_cons_of_mem _ hc', he⟩

theorem syncCommitsRepos_queries_shape (client : Client) (committed : Store)
    (username : String) (since : Option Nat) :
    ∀ (rs : List RepoRow) (w : Store) (n : Nat) (qs : List CommitQuery)
      (ds : List String),
      ∀ q ∈ (syncCommitsRepos client committed username since rs w n qs ds).queries,
        q ∈ qs ∨ (q.since = since ∧ q.author = username) := by
  intro rs
  induction rs with
  | nil => intro w n qs ds q hq; exact Or.inl hq
  | cons repo rest ih =>
    intro w n qs ds q hq
    simp only [syncCommitsRepos] at hq
    cases hg : client.getCommits (username ++ "/" ++ repo.repoName) since (some username) with
    | error e =>
      simp only [hg] at hq
      rcases List.mem_append.mp hq with h' | h'
      · exact Or.inl h'
      · rw [List.mem_singleton.mp h']; exact Or.inr ⟨rfl, rfl⟩
    | ok l =>
      simp only [hg] at hq
      cases he : (insertCommitsFold client committed.commits
          (username ++ "/" ++ repo.repoName) repo.id l w 0 []).err with
      | some e =>
        simp only [he] at hq
        rcases List.mem_append.mp hq with h' | h'
        · exact Or.inl h'
        · rw [List.mem_singleton.mp h']; exact Or.inr ⟨rfl, rfl⟩
      | none =>
        simp only [he] at hq
        rcases ih _ _ _ _ q hq with h' | h'
        · rcases List.mem_append.mp h' with h'' | h''
          · exact Or.inl h''
          · rw [List.mem_singleton.mp h'']; exact Or.inr ⟨rfl, rfl⟩
        · exact Or.inr h'

theorem syncCommitsRepos_detail_src (client : Client) (committed : Store)
    (username : String) (since : Option Nat) :
    ∀ (rs : List RepoRow) (w : Store) (n : Nat) (qs : List CommitQuery)
      (ds : List String) (sha : String),
      sha ∈ (syncCommitsRepos client committed username since rs w n qs ds).detailShas →
      sha ∈ ds ∨ ∃ fullName list,
        client.getCommits fullName since (some username) = .ok list ∧
        ∃ c ∈ list, c.sha = sha := by
  intro rs
  induction rs with
  | nil => intro w n qs ds sha h; exact Or.inl h
  | cons repo rest ih =>
    intro w n qs ds sha h
    simp only [syncCommitsRepos] at h
    cases hg : client.getCommits (username ++ "/" ++ repo.repoName) since (some username) with
    | error e =>
      simp only [hg] at h
      exact Or.inl h
    | ok l =>
      simp only [hg] at h
      cases he : (insertCommitsFold client committed.commits
          (username ++ "/" ++ repo.repoName) repo.id l w 0 []).err with
      | some e =>
        simp only [he] at h
        rcases List.mem_append.mp h with h' | h'
        · exact Or.inl h'
        · rcases insertCommitsFold_detailShas_src client committed.commits
              (username ++ "/" ++ repo.repoName) repo.id l w 0 [] sha h' with h'' | ⟨c, hc, hce⟩
          · exact absurd h'' (List.not_mem_nil sha)
          · exact Or.inr ⟨username ++ "/" ++ repo.repoName, l, hg, c, hc, hce⟩
      | none =>
        simp only [he] at h
        rcases ih _ _ _ _ sha h with h' | h'
        · rcases List.mem_append.mp h' with h'' | h''
          · exact Or.inl h''
          · rcases insertCommitsFold_detailShas_src client committed.commits
                (username ++ "/" ++ repo.repoName) repo.id l w 0 [] sha h'' with h3 | ⟨c, hc, hce⟩
            · exact absurd h3 (List.not_mem_nil sha)
            · exact Or.inr ⟨username ++ "/" ++ repo.repoName, l, hg, c, hc, hce⟩
        · exact Or.inr h'

theorem syncCommits_queries_eq (client : Client) (user : UserRow) (db : DB) :
    (syncCommits client user db).queries
      = (syncCommitsRepos client db.committed user.githubUsername user.lastSyncedAt
          (db.committed.repos.filter (fun r => r.userId == user.id))
          db.working 0 [] []).queries := by
  unfold syncCommits
  cases he : (syncCommitsRepos client db.committed user.githubUsername user.lastSyncedAt
      (db.committed.repos.filter (fun r => r.userId == user.id))
      db.working 0 [] []).err <;> simp [he]

theorem syncCommits_detailShas_eq (client : Client) (user : UserRow) (db : DB) :
    (syncCommits client user db).detailShas
      = (syncCommitsRepos client db.committed user.githubUsername user.lastSyncedAt
          (db.committed.repos.filter (fun r => r.userId == user.id))
          db.working 0 [] []).detailShas := by
  unfold syncCommits
  cases he : (syncCommitsRepos client db.committed user.githubUsername user.lastSyncedAt
      (db.committed.repos.filter (fun r => r.userId == user.id))
      db.working 0 [] []).err <;> simp [he]

/-! ## Claim C7 -/

/-- Claim C7: every commit-listing query issued by `_sync_commits` carries
`since = lastSyncedAt` (absent watermark → unbounded window) and
`author =` the tracked username; consequently, under the spec's model of the
external API's server-side filtering, every commit the pass processes
(fetches detail stats for) is a server commit by the tracked author whose
author date is not before the watermark — commits inside the already-synced
window and commits by other authors are excluded from the fetch. -/
theorem syncCommits_incremental_window (client : Client) (user : UserRow) (db : DB) :
    (∀ q ∈ (syncCommits client user db).queries,
        q.since = user.lastSyncedAt ∧ q.author = user.githubUsername) ∧
    (∀ (srv : Server) (sha : String),
        sha ∈ (syncCommits (Server.client srv) user db).detailShas →
        ∃ fullName, ∃ sc ∈ srv.commitsOf fullName,
          sc.sha = sha ∧ sc.author = user.githubUsername ∧
          ∀ w, user.lastSyncedAt = some w → w ≤ sc.authorDate) := by
  constructor
  · intro q hq
    rw [syncCommits_queries_eq] at hq
    rcases syncCommitsRepos_queries_shape client db.committed user.githubUsername
        user.lastSyncedAt _ _ _ _ _ q hq with h | h
    · exact absurd h (List.not_mem_nil q)
    · exact h
  · intro srv sha hs
    rw [syncCommits_detailShas_eq] at hs
    rcases syncCommitsRepos_detail_src (Server.client srv) db.committed
        user.githubUsername user.lastSyncedAt _ _ _ _ _ sha hs with h | hex
    · exact absurd h (List.not_mem_nil sha)
    · obtain ⟨fullName, list, hok, c, hc, hsha⟩ := hex
      have hlist : srv.listCommits fullName user.lastSyncedAt (some user.githubUsername)
          = list := Except.ok.inj hok
      rw [← hlist] at hc
      simp only [Server.listCommits, List.mem_map] at hc
      obtain ⟨sc, hscmem, hsceq⟩ := hc
      rw [List.mem_filter] at hscmem
      obtain ⟨hmem, hpred⟩ := hscmem
      rw [Bool.and_eq_true] at hpred
      refine ⟨fullName, sc, hmem, ?_, ?_, ?_⟩
      · rw [← hsha, ← hsceq]
      · exact eq_of_beq hpred.2
      · intro w hw
        have h1 := hpred.1
        rw [hw] at h1
        exact of_decide_eq_true h1

/-! ## Deduplication lemmas (claim C5) -/

theorem insertCommitsFold_commits_suffix (client : Client) (cc : List CommitRow)
    (fullName : String) (repoId : Nat) :
    ∀ (l : List CommitData) (w : Store) (n : Nat) (ds : List String),
      ∃ t, (insertCommitsFold client cc fullName repoId l w n ds).working.commits
        = w.commits ++ t := by
  intro l
  induction l with
  | nil => intro w n ds; exact ⟨[], by simp [insertCommitsFold]⟩
  | cons c rest ih =>
    intro w n ds
    simp only [insertCommitsFold]
    cases hf : cc.find? (fun r => r.commitSha == c.sha) with
    | some r => exact ih w n ds
    | none =>
      cases hd : client.getCommitDetails fullName c.sha with
      | error e => exact ⟨[], by simp⟩
      | ok d =>
        obtain ⟨t, ht⟩ := ih (w.insertCommit repoId c.sha c.message c.authorDate
          d.filesChanged d.additions d.deletions) (n + 1) (ds ++ [c.sha])
        refine ⟨⟨w.nextId, repoId, c.sha, c.message, c.authorDate,
          d.filesChanged, d.additions, d.deletions⟩ :: t, ?_⟩
        rw [ht]
        simp [Store.insertCommit]

theorem insertCommitsFold_countP_present (client : Client) (cc : List CommitRow)
    (fullName : String) (repoId : Nat) (sha : String)
    (hpresent : ∃ r ∈ cc, r.commitSha = sha) :
    ∀ (l : List CommitData) (w : Store) (n : Nat) (ds : List String),
      (insertCommitsFold client cc fullName repoId l w n ds).working.commits.countP
          (fun row => row.commitSha == sha)
        = w.commits.countP (fun row => row.commitSha == sha) := by
  intro l
  induction l with
  | nil => intro w n ds; rfl
  | cons c rest ih =>
    intro w n ds
    simp only [insertCommitsFold]
    cases hf : cc.find? (fun r => r.commitSha == c.sha) with
    | some r => exact ih w n ds
    | none =>
      have hne : c.sha ≠ sha := by
        obtain ⟨r0, hr0, hr0sha⟩ := hpresent
        have := List.find?_eq_none.mp hf r0 hr0
        intro heq
        exact this (by rw [hr0sha, heq]; simp)
      cases hd : client.getCommitDetails fullName c.sha with
      | error e => rfl
      | ok d =>
        rw [ih]
        simp [Store.insertCommit, List.countP_append, List.countP_cons,
          beq_iff_eq, hne]

theorem insertCommitsFold_present_not_fetched (client : Client) (cc : List CommitRow)
    (fullName : String) (repoId : Nat) (sha : String)
    (hpresent : ∃ r ∈ cc, r.commitSha = sha) :
    ∀ (l : List CommitData) (w : Store) (n : Nat) (ds : List String),
      sha ∉ ds →
      sha ∉ (insertCommitsFold client cc fullName repoId l w n ds).detailShas := by
  intro l
  induction l with
  | nil => intro w n ds hds; exact hds
  | cons c rest ih =>
    intro w n ds hds
    simp only [insertCommitsFold]
    cases hf : cc.find? (fun r => r.commitSha == c.sha) with
    | some r => exact ih w n ds hds
    | none =>
      have hne : sha ≠ c.sha := by
        obtain ⟨r0, hr0, hr0sha⟩ := hpresent
        have := List.find?_eq_none.mp hf r0 hr0
        intro heq
        exact this (by rw [hr0sha, ← heq]; simp)
      have hds' : sha ∉ ds ++ [c.sha] := by
        intro hmem
        rcases List.mem_append.mp hmem with h' | h'
        · exact hds h'
        · exact hne (List.mem_singleton.mp h')
      cases hd : client.getCommitDetails fullName c.sha with
      | error e => exact hds'
      | ok d => exact ih _ _ _ hds'

theorem insertCommitsFold_complete (client : Client) (cc : List CommitRow)
    (fullName : String) (repoId : Nat) :
    ∀ (l : List CommitData) (w : Store) (n : Nat) (ds : List String),
      (insertCommitsFold client cc fullName repoId l w n ds).err = none →
      ∀ c ∈ l, (∃ r ∈ cc, r.commitSha = c.sha) ∨
        ∃ row ∈ (insertCommitsFold client cc fullName repoId l w n ds).working.commits,
          row.commitSha = c.sha := by
  intro l
  induction l with
  | nil => intro w n ds _ c hc; exact absurd hc (List.not_mem_nil c)
  | cons c0 rest ih =>
    intro w n ds herr c hc
    simp only [insertCommitsFold] at herr ⊢
    cases hf : cc.find? (fun r => r.commitSha == c0.sha) with
    | some r =>
      simp only [hf] at herr ⊢
      rcases List.mem_cons.mp hc with hc' | hc'
      · left
        refine ⟨r, List.mem_of_find?_eq_some hf, ?_⟩
        have := List.find?_some hf
        rw [hc']
        exact eq_of_beq this
      · exact ih w n ds herr c hc'
    | none =>
      simp only [hf] at herr ⊢
      cases hd : client.getCommitDetails fullName c0.sha with
      | error e => simp [hd] at herr
      | ok d =>
        simp only [hd] at herr ⊢
        rcases List.mem_cons.mp hc with hc' | hc'
        · right
          obtain ⟨t, ht⟩ := insertCommitsFold_commits_suffix client cc fullName repoId
            rest (w.insertCommit repoId c0.sha c0.message c0.authorDate
              d.filesChanged d.additions d.deletions) (n + 1) (ds ++ [c0.sha])
          refine ⟨⟨w.nextId, repoId, c0.sha, c0.message, c0.authorDate,
            d.filesChanged, d.additions, d.deletions⟩, ?_, by rw [hc']⟩
          rw [ht]
          apply List.mem_append_left
          simp [Store.insertCommit]
        · exact ih _ _ _ herr c hc'

theorem syncCommitsRepos_commits_suffix (client : Client) (committed : Store)
    (username : String) (since : Option Nat) :
    ∀ (rs : List RepoRow) (w : Store) (n : Nat) (qs : List CommitQuery)
      (ds : List String),
      ∃ t, (syncCommitsRepos client committed username since rs w n qs ds).working.commits
        = w.commits ++ t := by
  intro rs
  induction rs with
  | nil => intro w n qs ds; exact ⟨[], by simp [syncCommitsRepos]⟩
  | cons repo rest ih =>
    intro w n qs ds
    cases hg : client.getCommits (username ++ "/" ++ repo.repoName) since (some username) with
    | error e => exact ⟨[], by simp [syncCommitsRepos, hg]⟩
    | ok l =>
      obtain ⟨t1, ht1⟩ := insertCommitsFold_commits_suffix client committed.commits
        (username ++ "/" ++ repo.repoName) repo.id l w 0 []
      cases he : (insertCommitsFold client committed.commits
          (username ++ "/" ++ repo.repoName) repo.id l w 0 []).err with
      | some e => exact ⟨t1, by simp only [syncCommitsRepos, hg, he]; exact ht1⟩
      | none =>
        simp only [syncCommitsRepos, hg, he]
        obtain ⟨t2, ht2⟩ := ih (insertCommitsFold client committed.commits
          (username ++ "/" ++ repo.repoName) repo.id l w 0 []).working
          (n + (insertCommitsFold client committed.commits
            (username ++ "/" ++ repo.repoName) repo.id l w 0 []).added)
          (qs ++ [⟨username ++ "/" ++ repo.repoName, since, username⟩])
          (ds ++ (insertCommitsFold client committed.commits
            (username ++ "/" ++ repo.repoName) repo.id l w 0 []).detailShas)
        exact ⟨t1 ++ t2, by rw [ht2, ht1, List.append_assoc]⟩

theorem syncCommitsRepos_countP_present (client : Client) (committed : Store)
    (username : String) (since : Option Nat) (sha : String)
    (hpresent : ∃ r ∈ committed.commits, r.commitSha = sha) :
    ∀ (rs : List RepoRow) (w : Store) (n : Nat) (qs : List CommitQuery)
      (ds : List String),
      (syncCommitsRepos client committed username since rs w n qs ds).working.commits.countP
          (fun row => row.commitSha == sha)
        = w.commits.countP (fun row => row.commitSha == sha) := by
  intro rs
  induction rs with
  | nil => intro w n qs ds; rfl
  | cons repo rest ih =>
    intro w n qs ds
    cases hg : client.getCommits (username ++ "/" ++ repo.repoName) since (some username) with
    | error e => simp only [syncCommitsRepos, hg]
    | ok l =>
      have hfold := insertCommitsFold_countP_present client committed.commits
        (username ++ "/" ++ repo.repoName) repo.id sha hpresent l w 0 []
      cases he : (insertCommitsFold client committed.commits
          (username ++ "/" ++ repo.repoName) repo.id l w 0 []).err with
      | some e => simp only [syncCommitsRepos, hg, he]; exact hfold
      | none => simp only [syncCommitsRepos, hg, he]; rw [ih]; exact hfold

theorem syncCommitsRepos_present_not_fetched (client : Client) (committed : Store)
    (username : String) (since : Option Nat) (sha : String)
    (hpresent : ∃ r ∈ committed.commits, r.commitSha = sha) :
    ∀ (rs : List RepoRow) (w : Store) (n : Nat) (qs : List CommitQuery)
      (ds : List String),
      sha ∉ ds →
      sha ∉ (syncCommitsRepos client committed username since rs w n qs ds).detailShas := by
  intro rs
  induction rs with
  | nil => intro w n qs ds hds; exact hds
  | cons repo rest ih =>
    intro w n qs ds hds
    cases hg : client.getCommits (username ++ "/" ++ repo.repoName) since (some username) with
    | error e => simp only [syncCommitsRepos, hg]; exact hds
    | ok l =>
      have hfold := insertCommitsFold_present_not_fetched client committed.commits
        (username ++ "/" ++ repo.repoName) repo.id sha hpresent l w 0 []
        (List.not_mem_nil sha)
      have hds' : sha ∉ ds ++ (insertCommitsFold client committed.commits
          (username ++ "/" ++ repo.repoName) repo.id l w 0 []).detailShas := by
        intro hmem
        rcases List.mem_append.mp hmem with h' | h'
        · exact hds h'
        · exact hfold h'
      cases he : (insertCommitsFold client committed.commits
          (username ++ "/" ++ repo.repoName) repo.id l w 0 []).err with
      | some e => simp only [syncCommitsRepos, hg, he]; exact hds'
      | none => simp only [syncCommitsRepos, hg, he]; exact ih _ _ _ _ hds'

theorem syncCommitsRepos_complete (client : Client) (committed : Store)
    (username : String) (since : Option Nat) :
    ∀ (rs : List RepoRow) (w : Store) (n : Nat) (qs : List CommitQuery)
      (ds : List String),
      (syncCommitsRepos client committed username since rs w n qs ds).err = none →
      ∀ repo ∈ rs, ∀ list,
        client.getCommits (username ++ "/" ++ repo.repoName) since (some username)
          = .ok list →
      ∀ c ∈ list, (∃ r ∈ committed.commits, r.commitSha = c.sha) ∨
        ∃ row ∈ (syncCommitsRepos client committed username since rs w n qs ds).working.commits,
          row.commitSha = c.sha := by
  intro rs
  induction rs with
  | nil => intro w n qs ds _ repo hrepo; exact absurd hrepo (List.not_mem_nil repo)
  | cons repo0 rest ih =>
    intro w n qs ds herr repo hrepo list hlist c hc
    simp only [syncCommitsRepos] at herr ⊢
    cases hg : client.getCommits (username ++ "/" ++ repo0.repoName) since (some username) with
    | error e => simp [hg] at herr
    | ok l =>
      simp only [hg] at herr ⊢
      cases he : (insertCommitsFold client committed.commits
          (username ++ "/" ++ repo0.repoName) repo0.id l w 0 []).err with
      | some e => simp [he] at herr
      | none =>
        simp only [he] at herr ⊢
        rcases List.mem_cons.mp hrepo with hr' | hr'
        · -- the head repository: its fetched list is `l`
          subst hr'
          have hl : l = list := by
            rw [hg] at hlist
            exact Except.ok.inj hlist
          subst hl
          rcases insertCommitsFold_complete client committed.commits
              (username ++ "/" ++ repo.repoName) repo.id l w 0 [] he c hc with h' | ⟨row, hrow, hrowsha⟩
          · exact Or.inl h'
          · right
            obtain ⟨t, ht⟩ := syncCommitsRepos_commits_suffix client committed username
              since rest (insertCommitsFold client committed.commits
                (username ++ "/" ++ repo.repoName) repo.id l w 0 []).working
              (n + (insertCommitsFold client committed.commits
                (username ++ "/" ++ repo.repoName) repo.id l w 0 []).added)
              (qs ++ [⟨username ++ "/" ++ repo.repoName, since, username⟩])
              (ds ++ (insertCommitsFold client committed.commits
                (username ++ "/" ++ repo.repoName) repo.id l w 0 []).detailShas)
            refine ⟨row, ?_, hrowsha⟩
            rw [ht]
            exact List.mem_append_left _ hrow
        · exact ih _ _ _ _ herr repo hr' list hlist c hc

theorem syncCommits_working_eq (client : Client) (user : UserRow) (db : DB) :
    (syncCommits client user db).db.working
      = (syncCommitsRepos client db.committed user.githubUsername user.lastSyncedAt
          (db.committed.repos.filter (fun r => r.userId == user.id))
          db.working 0 [] []).working := by
  unfold syncCommits
  cases he : (syncCommitsRepos client db.committed user.githubUsername user.lastSyncedAt
      (db.committed.repos.filter (fun r => r.userId == user.id))
      db.working 0 [] []).err <;> simp [he, DB.commitTxn]

theorem syncCommits_ok_err (client : Client) (user : UserRow) (db : DB) (n : Nat)
    (h : (syncCommits client user db).result = .ok n) :
    (syncCommitsRepos client db.committed user.githubUsername user.lastSyncedAt
        (db.committed.repos.filter (fun r => r.userId == user.id))
        db.working 0 [] []).err = none := by
  unfold syncCommits at h
  cases he : (syncCommitsRepos client db.committed user.githubUsername user.lastSyncedAt
      (db.committed.repos.filter (fun r => r.userId == user.id))
      db.working 0 [] []).err with
  | some e => simp [he] at h
  | none => rfl

theorem syncCommits_ok_committed (client : Client) (user : UserRow) (db : DB) (n : Nat)
    (h : (syncCommits client user db).result = .ok n) :
    (syncCommits client user db).db.committed
      = (syncCommitsRepos client db.committed user.githubUsername user.lastSyncedAt
          (db.committed.repos.filter (fun r => r.userId == user.id))
          db.working 0 [] []).working := by
  unfold syncCommits at h ⊢
  cases he : (syncCommitsRepos client db.committed user.githubUsername user.lastSyncedAt
      (db.committed.repos.filter (fun r => r.userId == user.id))
      db.working 0 [] []).err with
  | some e => simp [he] at h
  | none => simp [he, DB.commitTxn]

/-! ## Claim C5 -/

/-- Claim C5: a commit whose sha is already present in storage is neither
detail-fetched nor re-inserted by a sync pass (the stored multiplicity of
that sha is unchanged, so a retried pass after an interruption creates no
duplicate CommitRecords), while every commit fetched for one of the user's
repositories and not yet stored ends up stored after a successful pass. -/
theorem syncCommits_no_duplicates (client : Client) (user : UserRow) (db : DB)
    (hclean : db.working = db.committed) :
    (∀ sha : String, (∃ r ∈ db.committed.commits, r.commitSha = sha) →
      sha ∉ (syncCommits client user db).detailShas ∧
      (syncCommits client user db).db.working.commits.countP
          (fun row => row.commitSha == sha)
        = db.working.commits.countP (fun row => row.commitSha == sha)) ∧
    (∀ n, (syncCommits client user db).result = .ok n →
      ∀ repo ∈ db.committed.repos.filter (fun r => r.userId == user.id),
      ∀ list, client.getCommits (user.githubUsername ++ "/" ++ repo.repoName)
          user.lastSyncedAt (some user.githubUsername) = .ok list →
      ∀ c ∈ list, ∃ row ∈ (syncCommits client user db).db.committed.commits,
        row.commitSha = c.sha) := by
  constructor
  · intro sha hpres
    constructor
    · rw [syncCommits_detailShas_eq]
      exact syncCommitsRepos_present_not_fetched client db.committed user.githubUsername
        user.lastSyncedAt sha hpres _ _ _ _ _ (List.not_mem_nil sha)
    · rw [syncCommits_working_eq]
      exact syncCommitsRepos_countP_present client db.committed user.githubUsername
        user.lastSyncedAt sha hpres _ _ _ _ _
  · intro n hok repo hrepo list hlist c hc
    have he := syncCommits_ok_err client user db n hok
    rw [syncCommits_ok_committed client user db n hok]
    rcases syncCommitsRepos_complete client db.committed user.githubUsername
        user.lastSyncedAt _ _ _ _ _ he repo hrepo list hlist c hc with
      ⟨r, hr, hrsha⟩ | ⟨row, hrow, hrowsha⟩
    · obtain ⟨t, htl⟩ := syncCommitsRepos_commits_suffix client db.committed
        user.githubUsername user.lastSyncedAt
        (db.committed.repos.filter (fun r => r.userId == user.id)) db.working 0 [] []
      refine ⟨r, ?_, hrsha⟩
      rw [htl]
      apply List.mem_append_left
      rw [hclean]
      exact hr
    · exact ⟨row, hrow, hrowsha⟩

/-- Witness for C5: with commit `"s1"` already stored, a pass over a server
offering `"s1"`, `"s2"`, `"s4"` never detail-fetches `"s1"` and leaves its
stored multiplicity unchanged. -/
theorem syncCommits_no_duplicates_witness :
    (dbS1.working = dbS1.committed ∧
      (∃ r ∈ dbS1.committed.commits, r.commitSha = "s1")) ∧
    ("s1" ∉ (syncCommits (Server.client srvScenario) userAlice dbS1).detailShas ∧
      (syncCommits (Server.client srvScenario) userAlice dbS1).db.working.commits.countP
          (fun row => row.commitSha == "s1")
        = dbS1.working.commits.countP (fun row => row.commitSha == "s1")) :=
  ⟨⟨rfl, by decide⟩,
    (syncCommits_no_duplicates (Server.client srvScenario) userAlice dbS1 rfl).1
      "s1" (by decide)⟩

/-! ## Summary cache lookup lemmas and claim C8 -/

theorem summaryPick_foldl_mem :
    ∀ (l : List SummaryRow) (acc : Option SummaryRow) (r : SummaryRow),
      l.foldl summaryPick acc = some r → acc = some r ∨ r ∈ l := by
  intro l
  induction l with
  | nil => intro acc r h; exact Or.inl h
  | cons s t ih =>
    intro acc r h
    rcases ih (summaryPick acc s) r h with h' | h'
    · cases hacc : acc with
      | none =>
        rw [hacc] at h'
        simp only [summaryPick] at h'
        have hsr : s = r := Option.some.inj h'
        exact Or.inr (by rw [← hsr]; exact List.mem_cons_self s t)
      | some b =>
        rw [hacc] at h'
        simp only [summaryPick] at h'
        by_cases hlt : b.generatedAt < s.generatedAt
        · rw [if_pos hlt] at h'
          have hsr : s = r := Option.some.inj h'
          exact Or.inr (by rw [← hsr]; exact List.mem_cons_self s t)
        · rw [if_neg hlt] at h'
          exact Or.inl h'
    · exact Or.inr (List.mem_cons_of_mem s h')

theorem summaryPick_foldl_ge :
    ∀ (l : List SummaryRow) (acc : Option SummaryRow) (r : SummaryRow),
      l.foldl summaryPick acc = some r →
      (∀ b, acc = some b → b.generatedAt ≤ r.generatedAt) ∧
      ∀ s ∈ l, s.generatedAt ≤ r.generatedAt := by
  intro l
  induction l with
  | nil =>
    intro acc r h
    refine ⟨?_, fun s hs => absurd hs (List.not_mem_nil s)⟩
    intro b hb
    rw [hb] at h
    exact le_of_eq (congrArg (fun u => u.generatedAt) (Option.some.inj h))
  | cons s t ih =>
    intro acc r h
    obtain ⟨hacc', hall⟩ := ih (summaryPick acc s) r h
    constructor
    · intro b hb
      by_cases hlt : b.generatedAt < s.generatedAt
      · have hs := hacc' s (by rw [hb]; simp [summaryPick, hlt])
        exact le_trans (le_of_lt hlt) hs
      · exact hacc' b (by rw [hb]; simp [summaryPick, hlt])
    · intro s' hs'
      rcases List.mem_cons.mp hs' with h' | h'
      · subst h'
        cases hacc : acc with
        | none => exact hacc' s' (by rw [hacc]; simp [summaryPick])
        | some b =>
          by_cases hlt : b.generatedAt < s'.generatedAt
          · exact hacc' s' (by rw [hacc]; simp [summaryPick, hlt])
          · have hb := hacc' b (by rw [hacc]; simp [summaryPick, hlt])
            exact le_trans (not_lt.mp hlt) hb
      · exact hall s' h'

/-- Claim C8: the summary cache lookup returns a stored record only when
account, granularity (timeframe), start date and end date all match the
queried key exactly, and the returned record has the latest generation
timestamp among all records matching that key; a record stored under a
different granularity or date range is never returned. -/
theorem summaryLookup_exact_key (summaries : List SummaryRow) (userId : Nat)
    (timeframe : String) (startDay endDay : Nat) (r : SummaryRow)
    (h : summaryLookup summaries userId timeframe startDay endDay = some r) :
    r ∈ summaries ∧ r.userId = userId ∧ r.timeframe = timeframe ∧
    r.startDate = startDay ∧ r.endDate = endDay ∧
    ∀ s ∈ summaries, s.userId = userId → s.timeframe = timeframe →
      s.startDate = startDay → s.endDate = endDay →
      s.generatedAt ≤ r.generatedAt := by
  unfold summaryLookup at h
  rcases summaryPick_foldl_mem _ none r h with h' | h'
  · exact absurd h' (by simp)
  · obtain ⟨hmem2, hpred⟩ := List.mem_filter.mp h'
    simp only [Bool.and_eq_true, beq_iff_eq] at hpred
    obtain ⟨⟨⟨h1, h2⟩, h3⟩, h4⟩ := hpred
    have hge := (summaryPick_foldl_ge _ none r h).2
    refine ⟨hmem2, h1, h2, h3, h4, ?_⟩
    intro s hs hs1 hs2 hs3 hs4
    apply hge
    rw [List.mem_filter]
    exact ⟨hs, by simp [hs1, hs2, hs3, hs4]⟩

/-- Witness for C8: among two records with the queried key and one with a
different granularity, the lookup returns the latest matching record. -/
theorem summaryLookup_exact_key_witness :
    summaryLookup summariesEx 1 "week" 100 107
        = some ⟨2, 1, "week", 100, 107, "new text", 60⟩ ∧
    ((⟨2, 1, "week", 100, 107, "new text", 60⟩ : SummaryRow) ∈ summariesEx ∧
      (⟨2, 1, "week", 100, 107, "new text", 60⟩ : SummaryRow).userId = 1 ∧
      (⟨2, 1, "week", 100, 107, "new text", 60⟩ : SummaryRow).timeframe = "week" ∧
      (⟨2, 1, "week", 100, 107, "new text", 60⟩ : SummaryRow).startDate = 100 ∧
      (⟨2, 1, "week", 100, 107, "new text", 60⟩ : SummaryRow).endDate = 107 ∧
      ∀ s ∈ summariesEx, s.userId = 1 → s.timeframe = "week" →
        s.startDate = 100 → s.endDate = 107 →
        s.generatedAt ≤ (⟨2, 1, "week", 100, 107, "new text", 60⟩ : SummaryRow).generatedAt) :=
  ⟨rfl, summaryLookup_exact_key summariesEx 1 "week" 100 107 _ rfl⟩

/-! ## Claim C10 -/

/-- Claim C10: calling the summarization service with an empty commit list
returns exactly the fixed text for that timeframe and performs no call to
the external summarization API. -/
theorem generateSummary_empty (api : String → Except AIErr String)
    (fmtDate : Nat → String) (timeframe : String) :
    generateSummary api fmtDate [] timeframe
      = (.ok ("No commits found in the last " ++ timeframe ++ "."), false) := by
  rfl

/-! ## User-table preservation lemmas (claim C9) -/

theorem insertCommitsFold_users_repos (client : Client) (cc : List CommitRow)
    (fullName : String) (repoId : Nat) :
    ∀ (l : List CommitData) (w : Store) (n : Nat) (ds : List String),
      (insertCommitsFold client cc fullName repoId l w n ds).working.users = w.users ∧
      (insertCommitsFold client cc fullName repoId l w n ds).working.repos = w.repos := by
  intro l
  induction l with
  | nil => intro w n ds; exact ⟨rfl, rfl⟩
  | cons c rest ih =>
    intro w n ds
    simp only [insertCommitsFold]
    cases hf : cc.find? (fun r => r.commitSha == c.sha) with
    | some r => exact ih w n ds
    | none =>
      cases hd : client.getCommitDetails fullName c.sha with
      | error e => exact ⟨rfl, rfl⟩
      | ok d => exact ih _ _ _

theorem syncCommitsRepos_users_repos (client : Client) (committed : Store)
    (username : String) (since : Option Nat) :
    ∀ (rs : List RepoRow) (w : Store) (n : Nat) (qs : List CommitQuery)
      (ds : List String),
      (syncCommitsRepos client committed username since rs w n qs ds).working.users
          = w.users ∧
      (syncCommitsRepos client committed username since rs w n qs ds).working.repos
          = w.repos := by
  intro rs
  induction rs with
  | nil => intro w n qs ds; exact ⟨rfl, rfl⟩
  | cons repo rest ih =>
    intro w n qs ds
    cases hg : client.getCommits (username ++ "/" ++ repo.repoName) since (some username) with
    | error e => simp only [syncCommitsRepos, hg]; constructor <;> trivial
    | ok l =>
      have hfold := insertCommitsFold_users_repos client committed.commits
        (username ++ "/" ++ repo.repoName) repo.id l w 0 []
      cases he : (insertCommitsFold client committed.commits
          (username ++ "/" ++ repo.repoName) repo.id l w 0 []).err with
      | some e => simp only [syncCommitsRepos, hg, he]; exact hfold
      | none =>
        simp only [syncCommitsRepos, hg, he]
        have hr := ih (insertCommitsFold client committed.commits
          (username ++ "/" ++ repo.repoName) repo.id l w 0 []).working
          (n + (insertCommitsFold client committed.commits
            (username ++ "/" ++ repo.repoName) repo.id l w 0 []).added)
          (qs ++ [⟨username ++ "/" ++ repo.repoName, since, username⟩])
          (ds ++ (insertCommitsFold client committed.commits
            (username ++ "/" ++ repo.repoName) repo.id l w 0 []).detailShas)
        exact ⟨hr.1.trans hfold.1, hr.2.trans hfold.2⟩

theorem syncCommits_working_users_repos (client : Client) (user : UserRow) (db : DB) :
    (syncCommits client user db).db.working.users = db.working.users ∧
    (syncCommits client user db).db.working.repos = db.working.repos := by
  rw [syncCommits_working_eq]
  exact syncCommitsRepos_users_repos client db.committed user.githubUsername
    user.lastSyncedAt _ _ _ _ _

/-- A watermark update leaves the (username, token) projection of the users
table unchanged. -/
theorem setLastSynced_token_map (s : Store) (uid : Nat) (t : Nat) :
    (s.setLastSynced uid t).users.map (fun u => (u.githubUsername, u.githubToken))
      = s.users.map (fun u => (u.githubUsername, u.githubToken)) := by
  simp only [Store.setLastSynced, List.map_map]
  apply List.map_congr_left
  intro a _
  by_cases h : a.id = uid <;> simp [h]

/-- Whatever happens in steps 2–4, the (username, token) projection of the
committed users table is exactly the one committed by the user upsert. -/
theorem syncPassTail_token_map (client : Client) (now : Nat) (user : UserRow)
    (db1 : DB) (username : String)
    (hclean1 : db1.working = db1.committed) :
    (syncPassTail client now user db1 username).db.committed.users.map
        (fun u => (u.githubUsername, u.githubToken))
      = db1.committed.users.map (fun u => (u.githubUsername, u.githubToken)) := by
  unfold syncPassTail
  cases hr1 : (syncRepositories client user db1).result with
  | error e1 =>
    simp only [hr1]
    rw [syncRepositories_error_db client user db1 e1 hr1, handleSyncExc_committed]
  | ok n =>
    simp only [hr1]
    have h1 := syncRepositories_committed client user db1 hclean1
    cases hr2 : (syncCommits client user (syncRepositories client user db1).db).result with
    | error e2 =>
      simp only [hr2]
      rw [handleSyncExc_committed,
        syncCommits_error_committed client user (syncRepositories client user db1).db e2 hr2,
        h1.1]
    | ok m =>
      simp only [hr2, DB.commitTxn]
      rw [setLastSynced_token_map,
        (syncCommits_working_users_repos client user (syncRepositories client user db1).db).1,
        h1.2.2, h1.1]

/-- Pairs in a users list are pairs in any list with the same
(username, token) projection. -/
theorem mem_map_pairs {l1 l2 : List UserRow}
    (h : l1.map (fun u => (u.githubUsername, u.githubToken))
        = l2.map (fun u => (u.githubUsername, u.githubToken)))
    (u : UserRow) (hu : u ∈ l1) : ∃ v ∈ l2, v.githubToken = u.githubToken := by
  have hm : (u.githubUsername, u.githubToken)
      ∈ l2.map (fun u => (u.githubUsername, u.githubToken)) := by
    rw [← h]
    exact List.mem_map_of_mem _ hu
  rcases List.mem_map.mp hm with ⟨v, hv, he⟩
  exact ⟨v, hv, congrArg Prod.snd he⟩

/-! ## Mask-token lemmas (claim C9) -/

theorem maskToken_length (t : String) : (maskToken t).length = t.length := by
  have hmk : ∀ l : List Char, (String.mk l).length = l.length := fun l => rfl
  by_cases h : t.length ≤ 4
  · simp only [maskToken]
    rw [if_pos h, hmk, List.length_replicate]
  · simp only [maskToken]
    rw [if_neg h, hmk, List.length_append, List.length_replicate, List.length_drop]
    have hd : t.data.length = t.length := rfl
    rw [hd]
    omega

theorem maskToken_prefix (t : String) :
    (maskToken t).data.take (t.length - 4)
      = List.replicate (t.length - 4) (Char.ofNat 42) := by
  by_cases h : t.length ≤ 4
  · simp only [maskToken]
    rw [if_pos h]
    show (List.replicate t.length (Char.ofNat 42)).take (t.length - 4) = _
    rw [List.take_replicate]
    congr 1
    omega
  · simp only [maskToken]
    rw [if_neg h]
    show (List.replicate (t.length - 4) (Char.ofNat 42)
        ++ t.data.drop (t.length - 4)).take (t.length - 4) = _
    have hleft := List.take_left (List.replicate (t.length - 4) (Char.ofNat 42))
      (t.data.drop (t.length - 4))
    rw [List.length_replicate] at hleft
    exact hleft

theorem maskToken_ext (t1 t2 : String) (hl : t1.length = t2.length)
    (h4 : t1.data.drop (t1.length - 4) = t2.data.drop (t2.length - 4)) :
    maskToken t1 = maskToken t2 := by
  unfold maskToken
  by_cases h : t1.length ≤ 4
  · rw [if_pos h, if_pos (hl ▸ h), hl]
  · rw [if_neg h, if_neg (by rw [← hl]; exact h), h4, hl]

/-! ## Claim C9 -/

/-- Claim C9: the raw credential is never written to storage — after any sync
pass, every committed user row's stored token is either the masked form of
the live token or a token value that was already stored before the pass; the
masked form has the same length as the token with every character before the
last 4 replaced by `*` (char 42), and is fully determined by the token's
length and last 4 characters, so no other character of the credential is
recoverable from storage. -/
theorem maskToken_security (client : Client) (now : Nat) (db : DB)
    (username token : String)
    (hu : username ≠ "") (htk : token ≠ "")
    (hclean : db.working = db.committed) :
    (∀ u ∈ (syncUserData ⟨some username, some token⟩ client now db).db.committed.users,
        u.githubToken = maskToken token ∨
        ∃ u0 ∈ db.committed.users, u0.githubToken = u.githubToken) ∧
    (maskToken token).length = token.length ∧
    (maskToken token).data.take (token.length - 4)
      = List.replicate (token.length - 4) (Char.ofNat 42) ∧
    (∀ t1 t2 : String, t1.length = t2.length →
        t1.data.drop (t1.length - 4) = t2.data.drop (t2.length - 4) →
        maskToken t1 = maskToken t2) := by
  refine ⟨?_, maskToken_length token, maskToken_prefix token, maskToken_ext⟩
  intro u hu'
  have h1 : (username == "") = false := beq_eq_false_iff_ne.mpr hu
  have h2 : (token == "") = false := beq_eq_false_iff_ne.mpr htk
  simp only [syncUserData, envBlank, h1, h2, Option.getD_some, if_false,
    Bool.false_eq_true] at hu'
  cases hfind : db.committed.users.find? (fun v => v.githubUsername == username) with
  | none =>
    simp only [hfind] at hu'
    have htm := syncPassTail_token_map client now
      ⟨db.working.nextId, username, maskToken token, none⟩
      (DB.commitTxn { db with working := db.working.insertUser username (maskToken token) })
      username rfl
    rcases mem_map_pairs htm u hu' with ⟨v, hv, hveq⟩
    have hv' : v ∈ db.working.users ++ [⟨db.working.nextId, username, maskToken token, none⟩] := hv
    rcases List.mem_append.mp hv' with hvin | hvin
    · right
      refine ⟨v, ?_, hveq⟩
      rw [← hclean]
      exact hvin
    · left
      rw [← hveq, List.mem_singleton.mp hvin]
  | some u0 =>
    simp only [hfind] at hu'
    have htm := syncPassTail_token_map client now
      { u0 with githubToken := maskToken token }
      (DB.commitTxn { db with working := db.working.updateUserToken u0.id (maskToken token) })
      username rfl
    rcases mem_map_pairs htm u hu' with ⟨v, hv, hveq⟩
    have hv' : v ∈ db.working.users.map
        (fun w => if w.id = u0.id then { w with githubToken := maskToken token } else w) := hv
    rcases List.mem_map.mp hv' with ⟨u1, hu1, hu1e⟩
    by_cases hid : u1.id = u0.id
    · left
      rw [← hveq, ← hu1e]
      simp [hid]
    · right
      refine ⟨u1, ?_, ?_⟩
      · rw [← hclean]
        exact hu1
      · rw [← hveq, ← hu1e]
        simp [hid]

/-- Witness for C9 at a concrete environment, client and database. -/
theorem maskToken_security_witness :
    (("alice" : String) ≠ "" ∧ ("tok_secret99" : String) ≠ "" ∧
      dbEmpty.working = dbEmpty.committed) ∧
    ((∀ u ∈ (syncUserData ⟨some "alice", some "tok_secret99"⟩ commitsFailClient 100
          dbEmpty).db.committed.users,
        u.githubToken = maskToken "tok_secret99" ∨
        ∃ u0 ∈ dbEmpty.committed.users, u0.githubToken = u.githubToken) ∧
      (maskToken "tok_secret99").length = ("tok_secret99" : String).length ∧
      (maskToken "tok_secret99").data.take (("tok_secret99" : String).length - 4)
        = List.replicate (("tok_secret99" : String).length - 4) (Char.ofNat 42) ∧
      (∀ t1 t2 : String, t1.length = t2.length →
          t1.data.drop (t1.length - 4) = t2.data.drop (t2.length - 4) →
          maskToken t1 = maskToken t2)) :=
  ⟨⟨by decide, by decide, rfl⟩,
    maskToken_security commitsFailClient 100 dbEmpty "alice" "tok_secret99"
      (by decide) (by decide) rfl⟩

/-! ## Server-client lemmas (claim C6) -/

/-- A generic transfer along equal map-projections. -/
theorem mem_of_map_eq {α β : Type} (f : α → β) {l1 l2 : List α}
    (h : l1.map f = l2.map f) (a : α) (ha : a ∈ l1) : ∃ b ∈ l2, f b = f a := by
  have hm : f a ∈ l2.map f := by
    rw [← h]
    exact List.mem_map_of_mem f ha
  rcases List.mem_map.mp hm with ⟨b, hb, he⟩
  exact ⟨b, hb, he⟩

theorem insertCommitsFold_all_present (client : Client) (cc : List CommitRow)
    (fullName : String) (repoId : Nat) :
    ∀ (l : List CommitData) (w : Store) (n : Nat) (ds : List String),
      (∀ c ∈ l, ∃ r ∈ cc, r.commitSha = c.sha) →
      insertCommitsFold client cc fullName repoId l w n ds = ⟨w, n, ds, none⟩ := by
  intro l
  induction l with
  | nil => intro w n ds _; rfl
  | cons c rest ih =>
    intro w n ds hp
    obtain ⟨r, hr, hsha⟩ := hp c (List.mem_cons_self c rest)
    have hsome : (cc.find? (fun v => v.commitSha == c.sha)).isSome := by
      rw [List.find?_isSome]
      exact ⟨r, hr, by simp [hsha]⟩
    obtain ⟨v, hv⟩ := Option.isSome_iff_exists.mp hsome
    simp only [insertCommitsFold, hv]
    exact ih w n ds (fun c' hc' => hp c' (List.mem_cons_of_mem c hc'))

theorem syncCommitsRepos_server_all_present (srv : Server) (committed : Store)
    (username : String) (since : Option Nat) :
    ∀ (rs : List RepoRow) (w : Store) (n : Nat) (qs : List CommitQuery)
      (ds : List String),
      (∀ repo ∈ rs, ∀ c ∈ srv.listCommits (username ++ "/" ++ repo.repoName)
          since (some username), ∃ r ∈ committed.commits, r.commitSha = c.sha) →
      (syncCommitsRepos (Server.client srv) committed username since rs w n qs ds).working
          = w ∧
      (syncCommitsRepos (Server.client srv) committed username since rs w n qs ds).added
          = n ∧
      (syncCommitsRepos (Server.client srv) committed username since rs w n qs ds).err
          = none := by
  intro rs
  induction rs with
  | nil => intro w n qs ds _; exact ⟨rfl, rfl, rfl⟩
  | cons repo rest ih =>
    intro w n qs ds hp
    have hfold := insertCommitsFold_all_present (Server.client srv) committed.commits
      (username ++ "/" ++ repo.repoName) repo.id
      (srv.listCommits (username ++ "/" ++ repo.repoName) since (some username)) w 0 []
      (hp repo (List.mem_cons_self repo rest))
    have ih' := ih w (n + 0)
      (qs ++ [⟨username ++ "/" ++ repo.repoName, since, username⟩]) (ds ++ [])
      (fun r hr => hp r (List.mem_cons_of_mem repo hr))
    have hg : (Server.client srv).getCommits (username ++ "/" ++ repo.repoName) since
        (some username)
        = .ok (srv.listCommits (username ++ "/" ++ repo.repoName) since (some username)) :=
      rfl
    simp only [syncCommitsRepos, hg, hfold]
    simpa using ih'

theorem updateRepoMeta_key_map (s : Store) (rid : Nat) (url : String)
    (lang : Option String) :
    (s.updateRepoMeta rid url lang).repos.map (fun r => (r.id, r.userId, r.repoName))
      = s.repos.map (fun r => (r.id, r.userId, r.repoName)) := by
  simp only [Store.updateRepoMeta, List.map_map]
  apply List.map_congr_left
  intro a _
  by_cases h : a.id = rid <;> simp [h]

theorem syncReposFold_all_present (cr : List RepoRow) (uid : Nat) :
    ∀ (l : List RepoData) (w : Store) (n : Nat),
      (∀ rd ∈ l, ∃ r ∈ cr, r.userId = uid ∧ r.repoName = rd.name) →
      (syncReposFold cr uid l w n).2 = n ∧
      (syncReposFold cr uid l w n).1.repos.map (fun r => (r.id, r.userId, r.repoName))
        = w.repos.map (fun r => (r.id, r.userId, r.repoName)) := by
  intro l
  induction l with
  | nil => intro w n _; exact ⟨rfl, rfl⟩
  | cons rd rest ih =>
    intro w n hp
    obtain ⟨r, hr, hu, hn⟩ := hp rd (List.mem_cons_self rd rest)
    have hsome : (cr.find? (fun v => v.userId == uid && v.repoName == rd.name)).isSome := by
      rw [List.find?_isSome]
      exact ⟨r, hr, by simp [hu, hn]⟩
    obtain ⟨v, hv⟩ := Option.isSome_iff_exists.mp hsome
    simp only [syncReposFold, hv]
    have ih' := ih (w.updateRepoMeta v.id rd.url rd.language) n
      (fun rd' hrd' => hp rd' (List.mem_cons_of_mem rd hrd'))
    exact ⟨ih'.1, ih'.2.trans (updateRepoMeta_key_map w v.id rd.url rd.language)⟩

theorem updateRepoMeta_keys_mem (s : Store) (rid : Nat) (url : String)
    (lang : Option String) (uid' : Nat) (name' : String)
    (h : ∃ r ∈ s.repos, r.userId = uid' ∧ r.repoName = name') :
    ∃ r ∈ (s.updateRepoMeta rid url lang).repos,
      r.userId = uid' ∧ r.repoName = name' := by
  obtain ⟨r, hr, h1, h2⟩ := h
  refine ⟨if r.id = rid then { r with repoUrl := url, language := lang } else r,
    List.mem_map_of_mem _ hr, ?_, ?_⟩
  · by_cases hc : r.id = rid <;> simp [hc, h1]
  · by_cases hc : r.id = rid <;> simp [hc, h2]

theorem syncReposFold_keys_mono (cr : List RepoRow) (uid : Nat) :
    ∀ (l : List RepoData) (w : Store) (n : Nat) (uid' : Nat) (name' : String),
      (∃ r ∈ w.repos, r.userId = uid' ∧ r.repoName = name') →
      ∃ r ∈ (syncReposFold cr uid l w n).1.repos,
        r.userId = uid' ∧ r.repoName = name' := by
  intro l
  induction l with
  | nil => intro w n uid' name' h; exact h
  | cons rd rest ih =>
    intro w n uid' name' h
    simp only [syncReposFold]
    cases hf : cr.find? (fun v => v.userId == uid && v.repoName == rd.name) with
    | some v => exact ih _ _ _ _ (updateRepoMeta_keys_mem w v.id rd.url rd.language _ _ h)
    | none =>
      apply ih
      obtain ⟨r, hr, h1, h2⟩ := h
      exact ⟨r, List.mem_append_left _ hr, h1, h2⟩

theorem syncReposFold_fetched_present (cr : List RepoRow) (uid : Nat) :
    ∀ (l : List RepoData) (w : Store) (n : Nat),
      (∀ r ∈ cr, ∃ r' ∈ w.repos, r'.userId = r.userId ∧ r'.repoName = r.repoName) →
      ∀ rd ∈ l, ∃ r' ∈ (syncReposFold cr uid l w n).1.repos,
        r'.userId = uid ∧ r'.repoName = rd.name := by
  intro l
  induction l with
  | nil => intro w n _ rd hrd; exact absurd hrd (List.not_mem_nil rd)
  | cons rd0 rest ih =>
    intro w n hcw rd hrd
    simp only [syncReposFold]
    cases hf : cr.find? (fun v => v.userId == uid && v.repoName == rd0.name) with
    | some v =>
      have hvmem : v ∈ cr := List.mem_of_find?_eq_some hf
      have hvpred := List.find?_some hf
      rw [Bool.and_eq_true, beq_iff_eq, beq_iff_eq] at hvpred
      have hcw' : ∀ r ∈ cr, ∃ r' ∈ (w.updateRepoMeta v.id rd0.url rd0.language).repos,
          r'.userId = r.userId ∧ r'.repoName = r.repoName := by
        intro r hr
        exact updateRepoMeta_keys_mem w v.id rd0.url rd0.language _ _ (hcw r hr)
      rcases List.mem_cons.mp hrd with hrd' | hrd'
      · subst hrd'
        apply syncReposFold_keys_mono
        obtain ⟨r', hr', he1, he2⟩ := hcw' v hvmem
        exact ⟨r', hr', by rw [he1, hvpred.1], by rw [he2, hvpred.2]⟩
      · exact ih _ _ hcw' rd hrd'
    | none =>
      have hcw' : ∀ r ∈ cr, ∃ r' ∈ (w.insertRepo uid rd0.name rd0.url rd0.language).repos,
          r'.userId = r.userId ∧ r'.repoName = r.repoName := by
        intro r hr
        obtain ⟨r', hr', h1, h2⟩ := hcw r hr
        exact ⟨r', List.mem_append_left _ hr', h1, h2⟩
      rcases List.mem_cons.mp hrd with hrd' | hrd'
      · subst hrd'
        apply syncReposFold_keys_mono
        refine ⟨⟨w.nextId, uid, rd.name, rd.url, rd.language⟩, ?_, rfl, rfl⟩
        simp [Store.insertRepo]
      · exact ih _ _ hcw' rd hrd'

theorem syncRepositories_ok_eq (client : Client) (user : UserRow) (db : DB)
    (grs : List RepoData) (hrep : client.getRepositories = .ok grs) :
    syncRepositories client user db
      = ⟨DB.commitTxn { db with working :=
          (syncReposFold db.committed.repos user.id grs db.working 0).1 },
        .ok (syncReposFold db.committed.repos user.id grs db.working 0).2⟩ := by
  unfold syncRepositories
  rw [hrep]

theorem insertCommitsFold_server_err (srv : Server) (cc : List CommitRow)
    (fullName : String) (repoId : Nat) :
    ∀ (l : List CommitData) (w : Store) (n : Nat) (ds : List String),
      (insertCommitsFold (Server.client srv) cc fullName repoId l w n ds).err = none := by
  intro l
  induction l with
  | nil => intro w n ds; rfl
  | cons c rest ih =>
    intro w n ds
    have hd : (Server.client srv).getCommitDetails fullName c.sha
        = .ok (srv.detailsOf c.sha) := rfl
    simp only [insertCommitsFold, hd]
    cases hf : cc.find? (fun r => r.commitSha == c.sha) with
    | some r => exact ih w n ds
    | none => exact ih _ _ _

theorem syncCommitsRepos_server_err (srv : Server) (committed : Store)
    (username : String) (since : Option Nat) :
    ∀ (rs : List RepoRow) (w : Store) (n : Nat) (qs : List CommitQuery)
      (ds : List String),
      (syncCommitsRepos (Server.client srv) committed username since rs w n qs ds).err
        = none := by
  intro rs
  induction rs with
  | nil => intro w n qs ds; rfl
  | cons repo rest ih =>
    intro w n qs ds
    have hg : (Server.client srv).getCommits (username ++ "/" ++ repo.repoName) since
        (some username)
        = .ok (srv.listCommits (username ++ "/" ++ repo.repoName) since (some username)) :=
      rfl
    have he := insertCommitsFold_server_err srv committed.commits
      (username ++ "/" ++ repo.repoName) repo.id
      (srv.listCommits (username ++ "/" ++ repo.repoName) since (some username)) w 0 []
    simp only [syncCommitsRepos, hg, he]
    exact ih _ _ _ _

theorem syncCommits_server_eq (srv : Server) (user : UserRow) (db : DB) :
    syncCommits (Server.client srv) user db
      = ⟨DB.commitTxn { db with working :=
          (syncCommitsRepos (Server.client srv) db.committed user.githubUsername
            user.lastSyncedAt (db.committed.repos.filter (fun r => r.userId == user.id))
            db.working 0 [] []).working },
        (syncCommitsRepos (Server.client srv) db.committed user.githubUsername
          user.lastSyncedAt (db.committed.repos.filter (fun r => r.userId == user.id))
          db.working 0 [] []).queries,
        (syncCommitsRepos (Server.client srv) db.committed user.githubUsername
          user.lastSyncedAt (db.committed.repos.filter (fun r => r.userId == user.id))
          db.working 0 [] []).detailShas,
        .ok (syncCommitsRepos (Server.client srv) db.committed user.githubUsername
          user.lastSyncedAt (db.committed.repos.filter (fun r => r.userId == user.id))
          db.working 0 [] []).added⟩ := by
  unfold syncCommits
  have he := syncCommitsRepos_server_err srv db.committed user.githubUsername
    user.lastSyncedAt (db.committed.repos.filter (fun r => r.userId == user.id))
    db.working 0 [] []
  simp only [he]

/-- A full pass against a healthy server always succeeds, committing the
repo-sync result, then the commit-sync result, then the watermark. -/
theorem syncPassTail_server_spec (srv : Server) (now : Nat) (user : UserRow)
    (db1 : DB) (username : String) :
    syncPassTail (Server.client srv) now user db1 username
      = ⟨⟨(runCommitsR srv user db1).working.setLastSynced user.id now,
          (runCommitsR srv user db1).working.setLastSynced user.id now⟩,
        (runCommitsR srv user db1).queries, (runCommitsR srv user db1).detailShas,
        .ok ⟨username, (runReposF srv user db1).2, (runCommitsR srv user db1).added, now⟩⟩ := by
  unfold syncPassTail
  rw [syncRepositories_ok_eq (Server.client srv) user db1 srv.repos rfl]
  simp only [syncCommits_server_eq, DB.commitTxn, runCommitsR, runReposF]

/-- `find?` by username commutes with a row transformation that preserves
usernames. -/
theorem find?_users_map (f : UserRow → UserRow)
    (hf : ∀ u, (f u).githubUsername = u.githubUsername) (name : String) :
    ∀ l : List UserRow,
      (l.map f).find? (fun u => u.githubUsername == name)
        = (l.find? (fun u => u.githubUsername == name)).map f := by
  intro l
  induction l with
  | nil => rfl
  | cons u rest ih =>
    simp only [List.map_cons, List.find?_cons]
    rw [hf u]
    cases hb : (u.githubUsername == name) with
    | true => rfl
    | false => exact ih

theorem find?_users_append (name : String) :
    ∀ l1 l2 : List UserRow,
      l1.find? (fun u => u.githubUsername == name) = none →
      (l1 ++ l2).find? (fun u => u.githubUsername == name)
        = l2.find? (fun u => u.githubUsername == name) := by
  intro l1
  induction l1 with
  | nil => intro l2 _; rfl
  | cons u rest ih =>
    intro l2 h
    simp only [List.cons_append, List.find?_cons] at h ⊢
    cases hb : (u.githubUsername == name) with
    | true => simp [hb] at h
    | false => simp only [hb] at h ⊢; exact ih l2 h

/-- Modelled window monotonicity: a commit inside the `since = t1` window is
inside any wider window (`since` absent or ≤ `t1`). -/
theorem listCommits_window_mono (srv : Server) (fullName : String)
    (a : Option String) (t1 : Nat) (since1 : Option Nat) (c : CommitData)
    (hs : since1 = none ∨ ∃ w, since1 = some w ∧ w ≤ t1)
    (hc : c ∈ srv.listCommits fullName (some t1) a) :
    c ∈ srv.listCommits fullName since1 a := by
  simp only [Server.listCommits, List.mem_map] at hc ⊢
  obtain ⟨sc, hmem, heq⟩ := hc
  rw [List.mem_filter] at hmem
  obtain ⟨hm, hp⟩ := hmem
  rw [Bool.and_eq_true] at hp
  refine ⟨sc, ?_, heq⟩
  rw [List.mem_filter]
  refine ⟨hm, ?_⟩
  rw [Bool.and_eq_true]
  refine ⟨?_, hp.2⟩
  rcases hs with h | ⟨w, hw, hwle⟩
  · rw [h]
  · rw [hw]
    have ht : t1 ≤ sc.authorDate := of_decide_eq_true hp.1
    exact decide_eq_true (le_trans hwle ht)

/-- After a successful pass against a healthy server: the pass reports ok,
the session is clean, the tracked user's row carries the new watermark, every
server repository is present for the user, and every server commit inside
the new watermark's window (by the tracked author) is stored. -/
theorem syncPassTail_server_post (srv : Server) (t1 : Nat) (user1 : UserRow)
    (db1 : DB) (username : String)
    (hclean1 : db1.working = db1.committed)
    (hname : user1.githubUsername = username)
    (hwin : user1.lastSyncedAt = none ∨ ∃ w, user1.lastSyncedAt = some w ∧ w ≤ t1)
    (hfind1 : db1.committed.users.find? (fun v => v.githubUsername == username)
        = some user1) :
    (syncPassTail (Server.client srv) t1 user1 db1 username).result
        = .ok ⟨username, (runReposF srv user1 db1).2, (runCommitsR srv user1 db1).added, t1⟩ ∧
    (syncPassTail (Server.client srv) t1 user1 db1 username).db.working
        = (syncPassTail (Server.client srv) t1 user1 db1 username).db.committed ∧
    ((syncPassTail (Server.client srv) t1 user1 db1 username).db.committed.users.find?
        (fun v => v.githubUsername == username)
        = some { user1 with lastSyncedAt := some t1 }) ∧
    (∀ rd ∈ srv.repos,
        ∃ r ∈ (syncPassTail (Server.client srv) t1 user1 db1 username).db.committed.repos,
          r.userId = user1.id ∧ r.repoName = rd.name) ∧
    (∀ repo ∈ (syncPassTail (Server.client srv) t1 user1 db1 username).db.committed.repos,
        repo.userId = user1.id →
        ∀ c ∈ srv.listCommits (username ++ "/" ++ repo.repoName) (some t1) (some username),
        ∃ r ∈ (syncPassTail (Server.client srv) t1 user1 db1 username).db.committed.commits,
          r.commitSha = c.sha) := by
  rw [syncPassTail_server_spec]
  have hRur := syncCommitsRepos_users_repos (Server.client srv) (runReposF srv user1 db1).1
    user1.githubUsername user1.lastSyncedAt
    ((runReposF srv user1 db1).1.repos.filter (fun r => r.userId == user1.id))
    (runReposF srv user1 db1).1 0 [] []
  have hFp := syncReposFold_preserves db1.committed.repos user1.id srv.repos db1.working 0
  refine ⟨rfl, rfl, ?_, ?_, ?_⟩
  · -- the user's row after the watermark commit
    show ((runCommitsR srv user1 db1).working.users.map
        (fun u => if u.id = user1.id then { u with lastSyncedAt := some t1 } else u)).find?
        (fun v => v.githubUsername == username) = _
    rw [find?_users_map _ (fun u => by by_cases h : u.id = user1.id <;> simp [h]) username]
    have hRu : (runCommitsR srv user1 db1).working.users = db1.committed.users := by
      rw [runCommitsR]
      rw [hRur.1]
      show (runReposF srv user1 db1).1.users = _
      rw [runReposF, hFp.1, hclean1]
    rw [hRu, hfind1]
    simp
  · -- every server repository is present
    intro rd hrd
    have hpres := syncReposFold_fetched_present db1.committed.repos user1.id srv.repos
      db1.working 0 (fun r hr => ⟨r, by rw [hclean1]; exact hr, rfl, rfl⟩) rd hrd
    show ∃ r ∈ ((runCommitsR srv user1 db1).working.setLastSynced user1.id t1).repos, _
    have hrepos : ((runCommitsR srv user1 db1).working.setLastSynced user1.id t1).repos
        = (runReposF srv user1 db1).1.repos := by
      show (runCommitsR srv user1 db1).working.repos = _
      rw [runCommitsR, hRur.2]
    rw [hrepos]
    exact hpres
  · -- every windowed server commit is stored
    intro repo hrepo huid c hc
    have hrepos : ((runCommitsR srv user1 db1).working.setLastSynced user1.id t1).repos
        = (runReposF srv user1 db1).1.repos := by
      show (runCommitsR srv user1 db1).working.repos = _
      rw [runCommitsR, hRur.2]
    rw [hrepos] at hrepo
    have hc1 : c ∈ srv.listCommits (username ++ "/" ++ repo.repoName)
        user1.lastSyncedAt (some username) := by
      apply listCommits_window_mono srv _ _ t1 _ c ?_ hc
      rcases hwin with h | ⟨w, hw, hle⟩
      · exact Or.inl h
      · exact Or.inr ⟨w, hw, hle⟩
    have herr := syncCommitsRepos_server_err srv (runReposF srv user1 db1).1
      user1.githubUsername user1.lastSyncedAt
      ((runReposF srv user1 db1).1.repos.filter (fun r => r.userId == user1.id))
      (runReposF srv user1 db1).1 0 [] []
    have hfilter : repo ∈ (runReposF srv user1 db1).1.repos.filter
        (fun r => r.userId == user1.id) := by
      rw [List.mem_filter]
      exact ⟨hrepo, by simp [huid]⟩
    have hget : (Server.client srv).getCommits
        (user1.githubUsername ++ "/" ++ repo.repoName) user1.lastSyncedAt
        (some user1.githubUsername)
        = .ok (srv.listCommits (user1.githubUsername ++ "/" ++ repo.repoName)
            user1.lastSyncedAt (some user1.githubUsername)) := rfl
    have hc2 : c ∈ srv.listCommits (user1.githubUsername ++ "/" ++ repo.repoName)
        user1.lastSyncedAt (some user1.githubUsername) := by
      rw [hname]
      exact hc1
    have hcomp := syncCommitsRepos_complete (Server.client srv) (runReposF srv user1 db1).1
      user1.githubUsername user1.lastSyncedAt
      ((runReposF srv user1 db1).1.repos.filter (fun r => r.userId == user1.id))
      (runReposF srv user1 db1).1 0 [] [] herr repo hfilter _ hget c hc2
    show ∃ r ∈ ((runCommitsR srv user1 db1).working.setLastSynced user1.id t1).commits, _
    have hcommits : ((runCommitsR srv user1 db1).working.setLastSynced user1.id t1).commits
        = (runCommitsR srv user1 db1).working.commits := rfl
    rw [hcommits]
    rcases hcomp with ⟨r, hr, hrsha⟩ | ⟨row, hrow, hrowsha⟩
    · obtain ⟨t, ht⟩ := syncCommitsRepos_commits_suffix (Server.client srv)
        (runReposF srv user1 db1).1 user1.githubUsername user1.lastSyncedAt
        ((runReposF srv user1 db1).1.repos.filter (fun r => r.userId == user1.id))
        (runReposF srv user1 db1).1 0 [] []
      refine ⟨r, ?_, hrsha⟩
      rw [runCommitsR, ht]
      exact List.mem_append_left _ hr
    · exact ⟨row, by rw [runCommitsR]; exact hrow, hrowsha⟩

/-- After the first full sync against a healthy server, the tracked user's
row exists with watermark `t1`, every server repository is stored for it,
and every server commit of the tracked author inside the `t1` window is
stored. -/
theorem syncUserData_server_first (srv : Server) (db0 : DB) (username token : String)
    (t1 : Nat) (hu : username ≠ "") (htk : token ≠ "")
    (hclean : db0.working = db0.committed)
    (hw : ∀ u ∈ db0.committed.users, u.githubUsername = username →
        ∀ w, u.lastSyncedAt = some w → w ≤ t1) :
    ∃ u2 : UserRow, ∃ r1 : SyncResult,
      (syncUserData ⟨some username, some token⟩ (Server.client srv) t1 db0).result
          = .ok r1 ∧
      (syncUserData ⟨some username, some token⟩ (Server.client srv) t1 db0).db.working
          = (syncUserData ⟨some username, some token⟩ (Server.client srv) t1 db0).db.committed ∧
      (syncUserData ⟨some username, some token⟩ (Server.client srv) t1
          db0).db.committed.users.find? (fun v => v.githubUsername == username)
          = some u2 ∧
      u2.lastSyncedAt = some t1 ∧
      (∀ rd ∈ srv.repos, ∃ r ∈ (syncUserData ⟨some username, some token⟩
          (Server.client srv) t1 db0).db.committed.repos,
          r.userId = u2.id ∧ r.repoName = rd.name) ∧
      (∀ repo ∈ (syncUserData ⟨some username, some token⟩ (Server.client srv) t1
          db0).db.committed.repos, repo.userId = u2.id →
          ∀ c ∈ srv.listCommits (username ++ "/" ++ repo.repoName) (some t1) (some username),
          ∃ r ∈ (syncUserData ⟨some username, some token⟩ (Server.client srv) t1
            db0).db.committed.commits, r.commitSha = c.sha) := by
  have h1 : (username == "") = false := beq_eq_false_iff_ne.mpr hu
  have h2 : (token == "") = false := beq_eq_false_iff_ne.mpr htk
  simp only [syncUserData, envBlank, h1, h2, Option.getD_some, if_false,
    Bool.false_eq_true]
  cases hfind0 : db0.committed.users.find? (fun v => v.githubUsername == username) with
  | none =>
    simp only [hfind0]
    set row : UserRow := ⟨db0.working.nextId, username, maskToken token, none⟩ with hrow
    set db1 : DB := DB.commitTxn
      { db0 with working := db0.working.insertUser username (maskToken token) } with hdb1
    have hfind1 : db1.committed.users.find? (fun v => v.githubUsername == username)
        = some row := by
      have hus : db1.committed.users = db0.committed.users ++ [row] := by
        rw [hdb1, hrow]
        show (db0.working.insertUser username (maskToken token)).users = _
        simp only [Store.insertUser]
        rw [hclean]
      rw [hus, find?_users_append username db0.committed.users [row] hfind0]
      simp [hrow]
    have hpost := syncPassTail_server_post srv t1 row db1 username (by rw [hdb1]; rfl)
      rfl (Or.inl rfl) hfind1
    exact ⟨{ row with lastSyncedAt := some t1 }, _, hpost.1, hpost.2.1, hpost.2.2.1,
      rfl, hpost.2.2.2.1, hpost.2.2.2.2⟩
  | some u0 =>
    simp only [hfind0]
    have hname0 : u0.githubUsername = username := by
      have h := List.find?_some hfind0
      exact eq_of_beq h
    set user1 : UserRow := { u0 with githubToken := maskToken token } with huser1
    set db1 : DB := DB.commitTxn
      { db0 with working := db0.working.updateUserToken u0.id (maskToken token) } with hdb1
    have hfind1 : db1.committed.users.find? (fun v => v.githubUsername == username)
        = some user1 := by
      have hus : db1.committed.users = db0.committed.users.map
          (fun u => if u.id = u0.id then { u with githubToken := maskToken token } else u) := by
        rw [hdb1]
        show (db0.working.updateUserToken u0.id (maskToken token)).users = _
        rw [Store.updateUserToken, hclean]
      rw [hus, find?_users_map _ (fun u => by by_cases h : u.id = u0.id <;> simp [h])
        username, hfind0]
      simp [huser1]
    have hwin : user1.lastSyncedAt = none ∨
        ∃ w, user1.lastSyncedAt = some w ∧ w ≤ t1 := by
      cases hls : u0.lastSyncedAt with
      | none => exact Or.inl rfl
      | some w =>
        refine Or.inr ⟨w, rfl, ?_⟩
        exact hw u0 (List.mem_of_find?_eq_some hfind0) hname0 w hls
    have hpost := syncPassTail_server_post srv t1 user1 db1 username (by rw [hdb1]; rfl)
      (by rw [huser1]; exact hname0) hwin hfind1
    exact ⟨{ user1 with lastSyncedAt := some t1 }, _, hpost.1, hpost.2.1, hpost.2.2.1,
      rfl, hpost.2.2.2.1, hpost.2.2.2.2⟩

/-- A sync pass against a healthy server whose repositories and windowed
commits are all already stored is a no-op: it reports zero additions and
leaves the entity counts (and the stored commits themselves) unchanged. -/
theorem syncUserData_server_noop (srv : Server) (db : DB) (username token : String)
    (now : Nat) (u2 : UserRow)
    (hu : username ≠ "") (htk : token ≠ "")
    (hclean : db.working = db.committed)
    (hfind : db.committed.users.find? (fun v => v.githubUsername == username) = some u2)
    (hrepos : ∀ rd ∈ srv.repos, ∃ r ∈ db.committed.repos,
        r.userId = u2.id ∧ r.repoName = rd.name)
    (hcommits : ∀ repo ∈ db.committed.repos, repo.userId = u2.id →
        ∀ c ∈ srv.listCommits (username ++ "/" ++ repo.repoName) u2.lastSyncedAt
          (some username),
        ∃ r ∈ db.committed.commits, r.commitSha = c.sha) :
    (syncUserData ⟨some username, some token⟩ (Server.client srv) now db).result
        = .ok ⟨username, 0, 0, now⟩ ∧
    (syncUserData ⟨some username, some token⟩ (Server.client srv) now
        db).db.committed.users.length = db.committed.users.length ∧
    (syncUserData ⟨some username, some token⟩ (Server.client srv) now
        db).db.committed.repos.length = db.committed.repos.length ∧
    (syncUserData ⟨some username, some token⟩ (Server.client srv) now
        db).db.committed.commits = db.committed.commits := by
  have h1 : (username == "") = false := beq_eq_false_iff_ne.mpr hu
  have h2 : (token == "") = false := beq_eq_false_iff_ne.mpr htk
  simp only [syncUserData, envBlank, h1, h2, Option.getD_some, if_false,
    Bool.false_eq_true, hfind]
  set user2 : UserRow := { u2 with githubToken := maskToken token } with huser2
  set db1 : DB := DB.commitTxn
    { db with working := db.working.updateUserToken u2.id (maskToken token) } with hdb1
  rw [syncPassTail_server_spec]
  have hb1repos : db1.committed.repos = db.committed.repos := by
    rw [hdb1]
    show (db.working.updateUserToken u2.id (maskToken token)).repos = _
    rw [Store.updateUserToken, hclean]
  have hb1commits : db1.committed.commits = db.committed.commits := by
    rw [hdb1]
    show (db.working.updateUserToken u2.id (maskToken token)).commits = _
    rw [Store.updateUserToken, hclean]
  have hb1users : db1.committed.users = db.committed.users.map
      (fun u => if u.id = u2.id then { u with githubToken := maskToken token } else u) := by
    rw [hdb1]
    show (db.working.updateUserToken u2.id (maskToken token)).users = _
    rw [Store.updateUserToken, hclean]
  have hAP : ∀ rd ∈ srv.repos, ∃ r ∈ db1.committed.repos,
      r.userId = user2.id ∧ r.repoName = rd.name := by
    intro rd hrd
    obtain ⟨r, hr, hA, hB⟩ := hrepos rd hrd
    exact ⟨r, by rw [hb1repos]; exact hr, hA, hB⟩
  have hFold := syncReposFold_all_present db1.committed.repos user2.id srv.repos
    db1.working 0 hAP
  have hFusers := syncReposFold_preserves db1.committed.repos user2.id srv.repos
    db1.working 0
  rw [show syncReposFold db1.committed.repos user2.id srv.repos db1.working 0
    = runReposF srv user2 db1 from rfl] at hFold hFusers
  have hCP : ∀ repo ∈ (runReposF srv user2 db1).1.repos.filter
      (fun r => r.userId == user2.id),
      ∀ c ∈ srv.listCommits (user2.githubUsername ++ "/" ++ repo.repoName)
        user2.lastSyncedAt (some user2.githubUsername),
      ∃ r ∈ (runReposF srv user2 db1).1.commits, r.commitSha = c.sha := by
    intro repo hrepo c hc
    rw [List.mem_filter] at hrepo
    obtain ⟨hmem, hpred⟩ := hrepo
    obtain ⟨row0, hrow0, hkey⟩ := mem_of_map_eq (fun r => (r.id, r.userId, r.repoName))
      hFold.2 repo hmem
    have hrow0' : row0 ∈ db.committed.repos := by
      rw [← hb1repos]
      have : db1.working.repos = db1.committed.repos := by rw [hdb1]; rfl
      rw [← this]
      exact hrow0
    have hkid : row0.userId = repo.userId ∧ row0.repoName = repo.repoName := by
      have h := hkey
      simp only [Prod.mk.injEq] at h
      exact ⟨h.2.1, h.2.2⟩
    have huid : repo.userId = u2.id := eq_of_beq hpred
    have hname2 : u2.githubUsername = username := by
      have h := List.find?_some hfind
      exact eq_of_beq h
    have hc' : c ∈ srv.listCommits (username ++ "/" ++ row0.repoName)
        u2.lastSyncedAt (some username) := by
      rw [hkid.2]
      have : user2.githubUsername = username := hname2
      rw [← this]
      exact hc
    obtain ⟨r, hr, hrsha⟩ := hcommits row0 hrow0' (by rw [hkid.1, huid]) c hc'
    refine ⟨r, ?_, hrsha⟩
    rw [hFusers.2]
    have : db1.working.commits = db1.committed.commits := by rw [hdb1]; rfl
    rw [this, hb1commits]
    exact hr
  have hR := syncCommitsRepos_server_all_present srv (runReposF srv user2 db1).1
    user2.githubUsername user2.lastSyncedAt
    ((runReposF srv user2 db1).1.repos.filter (fun r => r.userId == user2.id))
    (runReposF srv user2 db1).1 0 [] [] hCP
  rw [show syncCommitsRepos (Server.client srv) (runReposF srv user2 db1).1
      user2.githubUsername user2.lastSyncedAt
      ((runReposF srv user2 db1).1.repos.filter (fun r => r.userId == user2.id))
      (runReposF srv user2 db1).1 0 [] [] = runCommitsR srv user2 db1 from rfl] at hR
  have hRw : (runCommitsR srv user2 db1).working = (runReposF srv user2 db1).1 := hR.1
  have hRa : (runCommitsR srv user2 db1).added = 0 := hR.2.1
  have hF2 : (runReposF srv user2 db1).2 = 0 := hFold.1
  refine ⟨?_, ?_, ?_, ?_⟩
  · rw [show (runReposF srv user2 db1).2 = 0 from hF2, hRa]
  · show ((runCommitsR srv user2 db1).working.setLastSynced user2.id now).users.length = _
    rw [Store.setLastSynced]
    simp only [List.length_map]
    rw [hRw]
    show (runReposF srv user2 db1).1.users.length = _
    rw [hFusers.1]
    have : db1.working.users = db1.committed.users := by rw [hdb1]; rfl
    rw [this, hb1users, List.length_map]
  · show ((runCommitsR srv user2 db1).working.setLastSynced user2.id now).repos.length = _
    show (runCommitsR srv user2 db1).working.repos.length = _
    rw [hRw]
    have hlen := congrArg List.length hFold.2
    simp only [List.length_map] at hlen
    rw [show (runReposF srv user2 db1).1.repos.length
      = db1.working.repos.length from hlen]
    have : db1.working.repos = db1.committed.repos := by rw [hdb1]; rfl
    rw [this, hb1repos]
  · show ((runCommitsR srv user2 db1).working.setLastSynced user2.id now).commits = _
    show (runCommitsR srv user2 db1).working.commits = _
    rw [hRw]
    show (runReposF srv user2 db1).1.commits = _
    rw [hFusers.2]
    have : db1.working.commits = db1.committed.commits := by rw [hdb1]; rfl
    rw [this, hb1commits]

/-! ## Claim C6 -/

/-- Claim C6: running the full sync twice in succession against a fixed
healthy server (no new external data) is idempotent — the second run
succeeds reporting zero new repositories and zero new commits, and the
stored entity counts (users, repositories) and the stored commits themselves
are unchanged by the second run. The watermark hypothesis `hw` says no
stored watermark lies in the future of the first run's clock. -/
theorem syncTwice_idempotent (srv : Server) (db0 : DB) (username token : String)
    (t1 t2 : Nat) (hu : username ≠ "") (htk : token ≠ "")
    (hclean : db0.working = db0.committed)
    (hw : ∀ u ∈ db0.committed.users, u.githubUsername = username →
        ∀ w, u.lastSyncedAt = some w → w ≤ t1) :
    ∃ r1 : SyncResult,
      (syncUserData ⟨some username, some token⟩ (Server.client srv) t1 db0).result
          = .ok r1 ∧
      (syncUserData ⟨some username, some token⟩ (Server.client srv) t2
          (syncUserData ⟨some username, some token⟩ (Server.client srv) t1 db0).db).result
          = .ok ⟨username, 0, 0, t2⟩ ∧
      (syncUserData ⟨some username, some token⟩ (Server.client srv) t2
          (syncUserData ⟨some username, some token⟩ (Server.client srv) t1
            db0).db).db.committed.users.length
        = (syncUserData ⟨some username, some token⟩ (Server.client srv) t1
            db0).db.committed.users.length ∧
      (syncUserData ⟨some username, some token⟩ (Server.client srv) t2
          (syncUserData ⟨some username, some token⟩ (Server.client srv) t1
            db0).db).db.committed.repos.length
        = (syncUserData ⟨some username, some token⟩ (Server.client srv) t1
            db0).db.committed.repos.length ∧
      (syncUserData ⟨some username, some token⟩ (Server.client srv) t2
          (syncUserData ⟨some username, some token⟩ (Server.client srv) t1
            db0).db).db.committed.commits
        = (syncUserData ⟨some username, some token⟩ (Server.client srv) t1
            db0).db.committed.commits := by
  obtain ⟨u2, r1, hok1, hclean1, hfind2, hls2, hrepos2, hcommits2⟩ :=
    syncUserData_server_first srv db0 username token t1 hu htk hclean hw
  have hnoop := syncUserData_server_noop srv
    (syncUserData ⟨some username, some token⟩ (Server.client srv) t1 db0).db
    username token t2 u2 hu htk hclean1 hfind2 hrepos2
    (by
      intro repo hr hid c hc
      rw [hls2] at hc
      exact hcommits2 repo hr hid c hc)
  exact ⟨r1, hok1, hnoop.1, hnoop.2.1, hnoop.2.2.1, hnoop.2.2.2⟩

/-- Witness for C6: two successive syncs of the §8 scenario server from an
empty database. -/
theorem syncTwice_idempotent_witness :
    (("alice" : String) ≠ "" ∧ ("tok_secret99" : String) ≠ "" ∧
      dbEmpty.working = dbEmpty.committed ∧
      (∀ u ∈ dbEmpty.committed.users, u.githubUsername = "alice" →
          ∀ w, u.lastSyncedAt = some w → w ≤ 100)) ∧
    (∃ r1 : SyncResult,
      (syncUserData ⟨some "alice", some "tok_secret99"⟩ (Server.client srvScenario)
          100 dbEmpty).result = .ok r1 ∧
      (syncUserData ⟨some "alice", some "tok_secret99"⟩ (Server.client srvScenario) 200
          (syncUserData ⟨some "alice", some "tok_secret99"⟩ (Server.client srvScenario)
            100 dbEmpty).db).result = .ok ⟨"alice", 0, 0, 200⟩ ∧
      (syncUserData ⟨some "alice", some "tok_secret99"⟩ (Server.client srvScenario) 200
          (syncUserData ⟨some "alice", some "tok_secret99"⟩ (Server.client srvScenario)
            100 dbEmpty).db).db.committed.users.length
        = (syncUserData ⟨some "alice", some "tok_secret99"⟩ (Server.client srvScenario)
            100 dbEmpty).db.committed.users.length ∧
      (syncUserData ⟨some "alice", some "tok_secret99"⟩ (Server.client srvScenario) 200
          (syncUserData ⟨some "alice", some "tok_secret99"⟩ (Server.client srvScenario)
            100 dbEmpty).db).db.committed.repos.length
        = (syncUserData ⟨some "alice", some "tok_secret99"⟩ (Server.client srvScenario)
            100 dbEmpty).db.committed.repos.length ∧
      (syncUserData ⟨some "alice", some "tok_secret99"⟩ (Server.client srvScenario) 200
          (syncUserData ⟨some "alice", some "tok_secret99"⟩ (Server.client srvScenario)
            100 dbEmpty).db).db.committed.commits
        = (syncUserData ⟨some "alice", some "tok_secret99"⟩ (Server.client srvScenario)
            100 dbEmpty).db.committed.commits) :=
  ⟨⟨by decide, by decide, rfl, fun u hu => absurd hu (List.not_mem_nil u)⟩,
    syncTwice_idempotent srvScenario dbEmpty "alice" "tok_secret99" 100 200
      (by decide) (by decide) rfl (fun u hu => absurd hu (List.not_mem_nil u))⟩

end DevTrack
